import Mathlib

/-!
# SimpleVector: a shallow embedding of `array_ptr.h` and `simple_vector.h`

Conventions of the embedding.

* A heap block is the list of its slots.  `ArrayPtr::raw_ptr_` is that list; the null
  pointer is the empty list (the class only calls `new Type[size]` for `size > 0`, so it never
  holds a zero-length block).
* An iterator (`Type*` into the block) is its offset from `begin()`.
* Dereferencing outside the block (or through the null pointer) is the fault `Fault.memory`;
  a failed `assert` is the fault `Fault.assertion`.
* `new Type[n]` is described by a `Heap`: whether the request succeeds and which values
  the fresh slots hold.
* `size_t` products are reduced modulo `2 ^ 64`.
* `std::move` of an element is modelled as a copy of its value.
* The reference parameter of `Insert` is an `Arg`: the object it is bound to is either outside
  the vector's block or one of its slots, and it is read where the source reads it.
-/

namespace SimpleVec

/-- Number of values of `size_t`. -/
def SIZE_MOD : Nat := 2 ^ 64

/-- Abnormal termination that is not an exception: a failed `assert`, or an access outside a block. -/
inductive Fault where
  | assertion
  | memory
  deriving DecidableEq, Repr

/-- The two exceptions of the library. -/
inductive Exn where
  | out_of_range
  | bad_alloc
  deriving DecidableEq, Repr

/-- Result of a member function on an object of state `σ` returning `ρ`: normal return with
the new state, an exception leaving the call with the state the object has at that moment,
or a fault. -/
inductive Outcome (σ ρ : Type) where
  | ret (r : ρ) (s : σ)
  | raised (e : Exn) (s : σ)
  | fault (f : Fault)
  deriving DecidableEq, Repr

/-- Result of a constructor building an object of state `σ`: the object, an exception (no
object exists), or a fault. -/
inductive Constructed (σ : Type) where
  | ok (s : σ)
  | raised (e : Exn)
  | fault (f : Fault)
  deriving DecidableEq, Repr

/-- Behaviour of `new Type[n]`: `canAlloc n` tells whether the request succeeds (otherwise
`std::bad_alloc`), `fresh i` is the value found in slot `i` of a fresh block. -/
structure Heap (α : Type) where
  canAlloc : Nat → Bool
  fresh : Nat → α

/-- A heap on which every request succeeds. -/
def Heap.Unbounded {α : Type} (H : Heap α) : Prop := ∀ n, H.canAlloc n = true

/-- The heap on which every request succeeds and fresh slots hold `fresh i`. -/
def Heap.always {α : Type} (fresh : Nat → α) : Heap α := { canAlloc := fun _ => true, fresh := fresh }

/-- The heap on which every request fails. -/
def Heap.never {α : Type} (fresh : Nat → α) : Heap α := { canAlloc := fun _ => false, fresh := fresh }

/-- The block `new Type[n]` returns. -/
def Heap.block {α : Type} (H : Heap α) (n : Nat) : List α := (List.range n).map H.fresh

/-! ## `array_ptr.h` -/

/-- Class `ArrayPtr<Type>`: fields `raw_ptr_` and `size_`, both with their default member
initialisers. -/
structure ArrayPtr (α : Type) where
  raw_ptr_ : List α := []
  size_ : Nat := 0
  deriving DecidableEq, Repr

namespace ArrayPtr
variable {α : Type}

/-- Constructor `ArrayPtr(size_t size)`; `none` is `std::bad_alloc` thrown by `new`. -/
def ofSize (H : Heap α) (size : Nat) : Option (ArrayPtr α) :=
  if size > 0 then
    if H.canAlloc size then some { raw_ptr_ := H.block size, size_ := size } else none
  else
    some { raw_ptr_ := [] }

/-- Read through `operator[]`: `raw_ptr_[index]`. -/
def get? (a : ArrayPtr α) (index : Nat) : Option α := a.raw_ptr_[index]?

/-- Write through `operator[]`: `raw_ptr_[index] = x`. -/
def set? (a : ArrayPtr α) (index : Nat) (x : α) : Option (ArrayPtr α) :=
  if index < a.raw_ptr_.length then some { a with raw_ptr_ := a.raw_ptr_.set index x } else none

/-- The conversion `explicit operator bool()`: `raw_ptr_ == nullptr ? true : false`. -/
def toBool (a : ArrayPtr α) : Bool := if a.raw_ptr_.isEmpty then true else false

/-- Member `swap(ArrayPtr& other)` between two distinct owners: the assertion
`raw_ptr_ != other.raw_ptr_` fails exactly when both are null (two owners never hold the
same block); only `raw_ptr_` is exchanged.  `none` is the failed assertion. -/
def swap (a other : ArrayPtr α) : Option (ArrayPtr α × ArrayPtr α) :=
  if a.raw_ptr_.isEmpty && other.raw_ptr_.isEmpty then none
  else some ({ a with raw_ptr_ := other.raw_ptr_ }, { other with raw_ptr_ := a.raw_ptr_ })

/-- Member `Release()`: returns the block and nulls the pointer. -/
def Release (a : ArrayPtr α) : List α × ArrayPtr α := (a.raw_ptr_, { a with raw_ptr_ := [] })

/-- Member `Delete()`. -/
def Delete (a : ArrayPtr α) : ArrayPtr α := { a with raw_ptr_ := [] }

end ArrayPtr

/-! ## Element-wise loops over blocks -/

section Loops
variable {α : Type}

/-- Body of `std::copy` / `std::move` run `n` times: `*d++ = *first++` from block `src`
into block `dst`. -/
def copyLoop (src : List α) : Nat → Nat → List α → Nat → Option (List α)
  | 0, _, dst, _ => some dst
  | n + 1, first, dst, d =>
    match src[first]? with
    | none => none
    | some x => if d < dst.length then copyLoop src n (first + 1) (dst.set d x) (d + 1) else none

/-- The call `std::copy(b + first, b + last, t + d_first)` (also `std::move`) from block `src`
into another block `dst`. -/
def stdCopy (src : List α) (first last : Nat) (dst : List α) (d_first : Nat) : Option (List α) :=
  if first ≤ last then copyLoop src (last - first) first dst d_first else none

/-- Body of `std::copy_backward` / `std::move_backward` run `n` times inside one block:
`*--d_last = *--last`. -/
def copyBackwardLoop : Nat → List α → Nat → Nat → Option (List α)
  | 0, buf, _, _ => some buf
  | n + 1, buf, last, d_last =>
    match buf[last - 1]? with
    | none => none
    | some x =>
      if d_last - 1 < buf.length then copyBackwardLoop n (buf.set (d_last - 1) x) (last - 1) (d_last - 1)
      else none

/-- The call `std::copy_backward(b + first, b + last, b + d_last)` inside one block. -/
def stdCopyBackward (buf : List α) (first last d_last : Nat) : Option (List α) :=
  if first ≤ last then copyBackwardLoop (last - first) buf last d_last else none

/-- Body of `for (it = b + i; ...; ++it) *it = x` run `n` times. -/
def fillLoop (x : α) : Nat → List α → Nat → Option (List α)
  | 0, buf, _ => some buf
  | n + 1, buf, i => if i < buf.length then fillLoop x n (buf.set i x) (i + 1) else none

/-- The loop `for (it = b + first; it != b + last; ++it) *it = x` (also `std::fill`): when
`first` is beyond `last` the iterator runs off the block. -/
def fillRange (x : α) (buf : List α) (first last : Nat) : Option (List α) :=
  if first ≤ last then fillLoop x (last - first) buf first else none

/-- Body of the loop of `Erase` run `n` times: `*it = std::move(*(it + 1)); ++it`. -/
def shiftLoop : Nat → List α → Nat → Option (List α)
  | 0, buf, _ => some buf
  | n + 1, buf, it =>
    match buf[it + 1]? with
    | none => none
    | some x => if it < buf.length then shiftLoop n (buf.set it x) (it + 1) else none

/-- Offsets dereferenced by the loop of `Erase` run `n` times from `it`: each iteration reads
`*(it + 1)` and then writes `*it`. -/
def shiftAccesses : Nat → Nat → List Nat
  | 0, _ => []
  | n + 1, it => (it + 1) :: it :: shiftAccesses n (it + 1)

/-- Offsets written by the loop `for (it = b + first; it != b + last; ++it) *it = x`. -/
def fillAccesses (first last : Nat) : List Nat := List.range' first (last - first)

/-- Body of `std::equal` over `first1 + i`, `first2 + i` run at most `n` times: stops with
`false` at the first mismatch. -/
def equalLoop [DecidableEq α] (a b : List α) : Nat → Nat → Option Bool
  | 0, _ => some true
  | n + 1, i =>
    match a[i]?, b[i]? with
    | some x, some y => if x = y then equalLoop a b n (i + 1) else some false
    | _, _ => none

/-- Body of `std::lexicographical_compare` with `n` elements left in the first range and `m`
in the second: `if (*first1 < *first2) return true; if (*first2 < *first1) return false;`, and
after the loop `return first1 == last1 && first2 != last2`. -/
def lexLoop [LT α] [DecidableRel (fun (x y : α) => x < y)] (a b : List α) :
    Nat → Nat → Nat → Option Bool
  | 0, m, _ => some (decide (m ≠ 0))
  | _ + 1, 0, _ => some false
  | n + 1, m + 1, i =>
    match a[i]?, b[i]? with
    | some x, some y =>
      if x < y then some true
      else if y < x then some false
      else lexLoop a b n m (i + 1)
    | _, _ => none

end Loops

/-! ## `simple_vector.h` -/

/-- The object a reference parameter (`Type&`, `Type&&`) of a member function is bound to:
an object that is no slot of the vector's block, holding `x`, or the slot `vector_[j]` of the
vector the member function is called on. -/
inductive Arg (α : Type) where
  | outside (x : α)
  | slot (j : Nat)
  deriving DecidableEq, Repr

/-- Reading through the reference while the vector's block is `buf`; `none` is a read outside
the block. -/
def Arg.read {α : Type} (a : Arg α) (buf : List α) : Option α :=
  match a with
  | .outside x => some x
  | .slot j => buf[j]?

/-- Class `ReserveProxyObj`. -/
structure ReserveProxyObj where
  capacity_to_reserve_ : Nat := 0
  deriving DecidableEq, Repr

/-- Member `ReserveProxyObj::GetValue`. -/
def ReserveProxyObj.GetValue (obj : ReserveProxyObj) : Nat := obj.capacity_to_reserve_

/-- Free function `Reserve(capacity_to_reserve)`. -/
def Reserve (capacity_to_reserve : Nat) : ReserveProxyObj := { capacity_to_reserve_ := capacity_to_reserve }

/-- Class `SimpleVector<Type>`: fields in declaration order. -/
structure SimpleVector (α : Type) where
  size_ : Nat
  capacity_ : Nat
  vector_ : ArrayPtr α
  deriving DecidableEq, Repr

namespace SimpleVector
variable {α : Type}

/-- Default constructor `SimpleVector()`. -/
def empty : SimpleVector α := { size_ := 0, capacity_ := 0, vector_ := {} }

/-- Constructor `SimpleVector(ReserveProxyObj obj)`: members are initialised in declaration
order, `size_(0)`, `capacity_(obj.GetValue())`, `vector_{size_}`. -/
def ofReserve (H : Heap α) (obj : ReserveProxyObj) : Constructed (SimpleVector α) :=
  let size_ := 0
  let capacity_ := obj.GetValue
  match ArrayPtr.ofSize H size_ with
  | none => .raised .bad_alloc
  | some vector_ => .ok { size_ := size_, capacity_ := capacity_, vector_ := vector_ }

/-- Constructor `SimpleVector(std::initializer_list<Type> init)`: `size_(init.size())`,
`capacity_(init.size())`, `vector_{size_}`, then `std::copy` of the list into the block. -/
def ofList (H : Heap α) (init : List α) : Constructed (SimpleVector α) :=
  let size_ := init.length
  let capacity_ := init.length
  match ArrayPtr.ofSize H size_ with
  | none => .raised .bad_alloc
  | some vector_ =>
    match stdCopy init 0 init.length vector_.raw_ptr_ 0 with
    | none => .fault .memory
    | some b => .ok { size_ := size_, capacity_ := capacity_, vector_ := { vector_ with raw_ptr_ := b } }

/-- Member `GetSize`. -/
def GetSize (v : SimpleVector α) : Nat := v.size_

/-- Member `GetCapacity`. -/
def GetCapacity (v : SimpleVector α) : Nat := v.capacity_

/-- Member `IsEmpty`. -/
def IsEmpty (v : SimpleVector α) : Bool := v.GetSize == 0

/-- The slots of the owned block. -/
def slots (v : SimpleVector α) : List α := v.vector_.raw_ptr_

/-- The logical sequence: the range `[begin(), end())`, i.e. the first `size_` slots. -/
def elems (v : SimpleVector α) : List α := v.slots.take v.size_

/-- Well-formedness: `size_ ≤ capacity_` and the owned block has exactly `capacity_` slots. -/
def WellFormed (v : SimpleVector α) : Prop :=
  v.size_ ≤ v.capacity_ ∧ v.slots.length = v.capacity_

instance (v : SimpleVector α) : Decidable v.WellFormed := by
  unfold WellFormed; infer_instance

/-- Member `Clear`. -/
def Clear (v : SimpleVector α) : SimpleVector α := { v with size_ := 0 }

/-- The statement `vector_.swap(tmp); tmp.Delete();` followed by the rest `k` of the member
function, which sees the new `vector_`. -/
def swapIn {ρ : Type} (v : SimpleVector α) (tmp : ArrayPtr α)
    (k : SimpleVector α → Outcome (SimpleVector α) ρ) : Outcome (SimpleVector α) ρ :=
  match v.vector_.swap tmp with
  | none => .fault .assertion
  | some (vec, _) => k { v with vector_ := vec }

/-- Member `PushBack` (both overloads have the same control flow). -/
def PushBack (H : Heap α) (item : α) (v : SimpleVector α) : Outcome (SimpleVector α) Unit :=
  let rest (v : SimpleVector α) : Outcome (SimpleVector α) Unit :=
    if v.size_ < v.capacity_ then
      match v.vector_.set? v.size_ item with
      | none => .fault .memory
      | some vec => .ret () { v with vector_ := vec, size_ := v.size_ + 1 }
    else
      match ArrayPtr.ofSize H (v.capacity_ * 2 % SIZE_MOD) with
      | none => .raised .bad_alloc v
      | some tmp =>
        match stdCopy v.slots 0 v.size_ tmp.raw_ptr_ 0 with
        | none => .fault .memory
        | some b =>
          match ({ tmp with raw_ptr_ := b } : ArrayPtr α).set? v.size_ item with
          | none => .fault .memory
          | some tmp =>
            swapIn v tmp fun v =>
              .ret () { v with size_ := v.size_ + 1, capacity_ := v.capacity_ * 2 % SIZE_MOD }
  if v.capacity_ = 0 then
    let v := { v with capacity_ := 1 }
    match ArrayPtr.ofSize H v.capacity_ with
    | none => .raised .bad_alloc v
    | some tmp => swapIn v tmp rest
  else rest v

/-- Member `Resize`; `Type()` is `default`.  The `catch` clause rethrows `std::bad_alloc`
before `size_` and `capacity_` are assigned. -/
def Resize [Inhabited α] (H : Heap α) (new_size : Nat) (v : SimpleVector α) :
    Outcome (SimpleVector α) Unit :=
  if new_size = 0 then .ret () v.Clear
  else if new_size < v.size_ then
    match fillRange default v.slots new_size v.size_ with
    | none => .fault .memory
    | some b => .ret () { v with vector_ := { v.vector_ with raw_ptr_ := b }, size_ := new_size }
  else if new_size < v.capacity_ then
    match fillRange default v.slots v.size_ new_size with
    | none => .fault .memory
    | some b => .ret () { v with vector_ := { v.vector_ with raw_ptr_ := b }, size_ := new_size }
  else if new_size ≥ v.capacity_ then
    let new_capacity := new_size * 2 % SIZE_MOD
    match ArrayPtr.ofSize H new_capacity with
    | none => .raised .bad_alloc v
    | some tmp =>
      match stdCopy v.slots 0 v.size_ tmp.raw_ptr_ 0 with
      | none => .fault .memory
      | some b =>
        match fillRange default b v.size_ new_capacity with
        | none => .fault .memory
        | some b =>
          swapIn v { tmp with raw_ptr_ := b } fun v =>
            .ret () { v with size_ := new_size, capacity_ := new_capacity }
  else .ret () v

/-- Member `Reserve`. -/
def Reserve [Inhabited α] (H : Heap α) (new_capacity : Nat) (v : SimpleVector α) :
    Outcome (SimpleVector α) Unit :=
  if new_capacity > v.capacity_ then
    match ArrayPtr.ofSize H new_capacity with
    | none => .raised .bad_alloc v
    | some tmp =>
      match stdCopy v.slots 0 v.size_ tmp.raw_ptr_ 0 with
      | none => .fault .memory
      | some b =>
        match fillRange default b v.size_ new_capacity with
        | none => .fault .memory
        | some b =>
          swapIn v { tmp with raw_ptr_ := b } fun v => .ret () { v with capacity_ := new_capacity }
  else .ret () v

/-- Member `Insert` at `begin() + pos` (both overloads have the same control flow); the
returned iterator is given as its offset from `begin()` of the storage in use on return.
An offset is never before `begin()`, so the assertion reduces to `pos <= end()`.  `value` is
a reference: it is read in `*it_pos = value` after `std::copy_backward` has shifted the
block, and in `*(tmp.Get() + distance) = value` while `vector_` is still the old block. -/
def Insert (H : Heap α) (pos : Nat) (value : Arg α) (v : SimpleVector α) :
    Outcome (SimpleVector α) Nat :=
  if ¬ pos ≤ v.size_ then .fault .assertion
  else
    let it_pos := pos
    if v.size_ < v.capacity_ then
      match stdCopyBackward v.slots it_pos v.size_ (v.size_ + 1) with
      | none => .fault .memory
      | some b =>
        match value.read b with
        | none => .fault .memory
        | some x =>
          match ({ v.vector_ with raw_ptr_ := b } : ArrayPtr α).set? it_pos x with
          | none => .fault .memory
          | some vec => .ret it_pos { v with vector_ := vec, size_ := v.size_ + 1 }
    else
      let new_capacity := if v.capacity_ > 0 then 2 * v.capacity_ % SIZE_MOD else 1
      let distance := it_pos
      match ArrayPtr.ofSize H new_capacity with
      | none => .raised .bad_alloc v
      | some tmp =>
        let copied :=
          if distance = 0 then stdCopy v.slots 0 v.size_ tmp.raw_ptr_ 1
          else
            match stdCopy v.slots 0 it_pos tmp.raw_ptr_ 0 with
            | none => none
            | some b => stdCopy v.slots it_pos v.size_ b (distance + 1)
        match copied with
        | none => .fault .memory
        | some b =>
          match value.read v.slots with
          | none => .fault .memory
          | some x =>
            match ({ tmp with raw_ptr_ := b } : ArrayPtr α).set? distance x with
            | none => .fault .memory
            | some tmp =>
              swapIn v tmp fun v =>
                .ret distance { v with size_ := v.size_ + 1, capacity_ := new_capacity }

/-- Member `PopBack`. -/
def PopBack [Inhabited α] (H : Heap α) (v : SimpleVector α) : Outcome (SimpleVector α) Unit :=
  if v.IsEmpty then .fault .assertion
  else Resize H (v.size_ - 1) v

/-- Member `Erase` at `begin() + pos`; the returned iterator is given as its offset from
`begin()`.  The loop runs `it` from `pos` until it equals `end()`. -/
def Erase [Inhabited α] (H : Heap α) (pos : Nat) (v : SimpleVector α) :
    Outcome (SimpleVector α) Nat :=
  if v.IsEmpty then .fault .assertion
  else if ¬ pos ≤ v.size_ then .fault .assertion
  else
    let it_pos := pos
    match shiftLoop (v.size_ - it_pos) v.slots it_pos with
    | none => .fault .memory
    | some b =>
      match Resize H (v.size_ - 1) { v with vector_ := { v.vector_ with raw_ptr_ := b } } with
      | .ret _ v => .ret it_pos v
      | .raised e v => .raised e v
      | .fault f => .fault f

/-- Member `At`; the returned reference is given as the value it denotes. -/
def At (index : Nat) (v : SimpleVector α) : Outcome (SimpleVector α) α :=
  if index ≥ v.size_ then .raised .out_of_range v
  else
    match v.vector_.get? index with
    | none => .fault .memory
    | some x => .ret x v

/-- Copy constructor `SimpleVector(const SimpleVector& other)`: `size_(other.size_)`,
`capacity_(other.capacity_)`, `vector_{size_}`, then `std::copy(other.begin(), other.end(), ...)`. -/
def copy (H : Heap α) (other : SimpleVector α) : Constructed (SimpleVector α) :=
  let size_ := other.size_
  let capacity_ := other.capacity_
  match ArrayPtr.ofSize H size_ with
  | none => .raised .bad_alloc
  | some vector_ =>
    match stdCopy other.slots 0 other.size_ vector_.raw_ptr_ 0 with
    | none => .fault .memory
    | some b => .ok { size_ := size_, capacity_ := capacity_, vector_ := { vector_ with raw_ptr_ := b } }

/-- Free `operator==`: `std::equal(lhs.begin(), lhs.end(), rhs.begin(), rhs.end())`, which
compares the two lengths and then the elements in order up to the first mismatch; `none` is an
access outside a block. -/
def eq [DecidableEq α] (lhs rhs : SimpleVector α) : Option Bool :=
  if lhs.size_ ≠ rhs.size_ then some false
  else equalLoop lhs.slots rhs.slots lhs.size_ 0

/-- Free `operator!=`: `!(lhs == rhs)`. -/
def ne [DecidableEq α] (lhs rhs : SimpleVector α) : Option Bool :=
  (eq lhs rhs).map fun r => !r

/-- Free `operator<`: `std::lexicographical_compare(lhs.begin(), lhs.end(), rhs.begin(),
rhs.end())`; `none` is an access outside a block. -/
def lt [LT α] [DecidableRel (fun (x y : α) => x < y)] (lhs rhs : SimpleVector α) : Option Bool :=
  lexLoop lhs.slots rhs.slots lhs.size_ rhs.size_ 0

/-- Free `operator<=`: `(lhs < rhs) || (lhs == rhs)`, the right operand evaluated only when
the left one is false. -/
def le [LT α] [DecidableRel (fun (x y : α) => x < y)] [DecidableEq α]
    (lhs rhs : SimpleVector α) : Option Bool :=
  match lt lhs rhs with
  | none => none
  | some true => some true
  | some false => eq lhs rhs

/-- Free `operator>`: `!(lhs <= rhs)`. -/
def gt [LT α] [DecidableRel (fun (x y : α) => x < y)] [DecidableEq α]
    (lhs rhs : SimpleVector α) : Option Bool :=
  (le lhs rhs).map fun r => !r

/-- Free `operator>=`: `!(lhs < rhs)`. -/
def ge [LT α] [DecidableRel (fun (x y : α) => x < y)] (lhs rhs : SimpleVector α) : Option Bool :=
  (lt lhs rhs).map fun r => !r

/-- The condition asserted by `operator[]`: `index <= size_`. -/
def subscriptAssert (index : Nat) (v : SimpleVector α) : Bool := decide (index ≤ v.size_)

/-- Member `operator[]` (both overloads): the assertion, then `vector_[index]`; the returned
reference is given as the value it denotes. -/
def subscript (index : Nat) (v : SimpleVector α) : Outcome (SimpleVector α) α :=
  if v.subscriptAssert index = false then .fault .assertion
  else
    match v.vector_.get? index with
    | none => .fault .memory
    | some x => .ret x v

/-- Move constructor `SimpleVector(SimpleVector&& other)`: `size_(other.size_)`,
`capacity_(other.capacity_)`, `vector_{size_}`, then `std::move(other.begin(), other.end(), ...)`,
`other.Clear()`, `other.capacity_ = 0`, `other.vector_.Delete()`.  The result is the new object
together with `other` as the constructor leaves it. -/
def moveCtor (H : Heap α) (other : SimpleVector α) :
    Constructed (SimpleVector α × SimpleVector α) :=
  let size_ := other.size_
  let capacity_ := other.capacity_
  match ArrayPtr.ofSize H size_ with
  | none => .raised .bad_alloc
  | some vector_ =>
    match stdCopy other.slots 0 other.size_ vector_.raw_ptr_ 0 with
    | none => .fault .memory
    | some b =>
      let other := other.Clear
      let other := { other with capacity_ := 0 }
      let other := { other with vector_ := other.vector_.Delete }
      .ok ({ size_ := size_, capacity_ := capacity_, vector_ := { vector_ with raw_ptr_ := b } },
        other)

/-- Member `swap(SimpleVector& other)` on two distinct objects: `vector_.swap(other.vector_)`,
`std::swap(size_, other.size_)`, `std::swap(capacity_, other.capacity_)`.  The state is the
pair (this object, `other`). -/
def swap (v other : SimpleVector α) : Outcome (SimpleVector α × SimpleVector α) Unit :=
  match v.vector_.swap other.vector_ with
  | none => .fault .assertion
  | some (vec, ovec) =>
    .ret () ({ size_ := other.size_, capacity_ := other.capacity_, vector_ := vec },
      { size_ := v.size_, capacity_ := v.capacity_, vector_ := ovec })

/-- Move assignment `operator=(SimpleVector&& rhs)` from a distinct object: `this->swap(rhs)`.
The state is the pair (this object, `rhs`). -/
def moveAssign (v rhs : SimpleVector α) : Outcome (SimpleVector α × SimpleVector α) Unit :=
  v.swap rhs

/-- Copy assignment `operator=(const SimpleVector& rhs)`: `SimpleVector tmp{rhs};
this->swap(tmp); tmp.Clear(); tmp.capacity_ = 0; tmp.vector_.Delete();`.  `rhs` is only read,
and only before this object changes, so self-assignment is the call with `rhs` equal to this
object; `tmp` is always a distinct object.  The state is this object. -/
def copyAssign (H : Heap α) (v rhs : SimpleVector α) : Outcome (SimpleVector α) Unit :=
  match copy H rhs with
  | .raised e => .raised e v
  | .fault f => .fault f
  | .ok tmp =>
    match v.swap tmp with
    | .ret _ (v, _) => .ret () v
    | .raised e (v, _) => .raised e v
    | .fault f => .fault f

/-- The object `SimpleVector<int> v{1, 2, 3, 4}` of `main.cpp`. -/
def v1234 : SimpleVector Int :=
  { size_ := 4, capacity_ := 4, vector_ := { raw_ptr_ := [1, 2, 3, 4], size_ := 4 } }

/-- The object `SimpleVector<int> v{1, 3}`. -/
def v13 : SimpleVector Int :=
  { size_ := 2, capacity_ := 2, vector_ := { raw_ptr_ := [1, 3], size_ := 2 } }

/-- The object left by `SimpleVector<int> s; s.PushBack(1); s.PushBack(2); s.PopBack();`. -/
def s1of2 : SimpleVector Int :=
  { size_ := 1, capacity_ := 2, vector_ := { raw_ptr_ := [1, 0], size_ := 0 } }

/-- The state in which `Resize(2^63 + 1)` leaves a default-constructed `SimpleVector<int>`. -/
def wrapped : SimpleVector Int :=
  { size_ := 2 ^ 63 + 1, capacity_ := 2, vector_ := { raw_ptr_ := [0, 0], size_ := 0 } }

/-- Offsets of the block that `Erase` at `begin() + pos` dereferences once its assertions have
passed: those of the shift loop, then those of `Resize(size_ - 1)`, which writes the slots
`[size_ - 1, size_)` unless the new size is 0. -/
def eraseAccesses (pos : Nat) (v : SimpleVector α) : List Nat :=
  shiftAccesses (v.size_ - pos) pos ++
    (if v.size_ - 1 = 0 then [] else fillAccesses (v.size_ - 1) v.size_)

/-- The object left by `SimpleVector<int> v{1, 2, 3, 4}; v.PopBack();`. -/
def v123of4 : SimpleVector Int :=
  { size_ := 3, capacity_ := 4, vector_ := { raw_ptr_ := [1, 2, 3, 0], size_ := 4 } }

/-- The statements `auto it = v.Insert(v.begin() + pos, value); v.Erase(it);` with `value` an
object outside the vector's block. -/
def insertThenErase [Inhabited α] (H : Heap α) (pos : Nat) (value : α) (v : SimpleVector α) :
    Outcome (SimpleVector α) Nat :=
  match Insert H pos (.outside value) v with
  | .ret it v => Erase H it v
  | o => o

/-- Runs `PushBack` on each item in turn, stopping at the first call that does not return. -/
def pushAll (H : Heap α) : List α → SimpleVector α → Outcome (SimpleVector α) Unit
  | [], v => .ret () v
  | x :: xs, v =>
    match PushBack H x v with
    | .ret _ v => pushAll H xs v
    | o => o

/-- The statements `v.PushBack(x1); ...; v.PushBack(xn); v.PopBack();` stopping at the first
call that does not return. -/
def pushAllThenPop [Inhabited α] (H : Heap α) (xs : List α) (v : SimpleVector α) :
    Outcome (SimpleVector α) Unit :=
  match pushAll H xs v with
  | .ret _ v => PopBack H v
  | o => o

end SimpleVector

/-! ## Facts about the loops -/

section LoopFacts
variable {α : Type}

theorem copyLoop_spec (src : List α) : ∀ (n first : Nat) (dst : List α) (d : Nat),
    first + n ≤ src.length → d + n ≤ dst.length →
    ∃ r, copyLoop src n first dst d = some r ∧ r.length = dst.length ∧
      ∀ i, r[i]? = if d ≤ i ∧ i < d + n then src[first + (i - d)]? else dst[i]? := by
  intro n
  induction n with
  | zero =>
    intro first dst d _ _
    refine ⟨dst, rfl, rfl, fun i => ?_⟩
    have : ¬ (d ≤ i ∧ i < d + 0) := by omega
    rw [if_neg this]
  | succ n ih =>
    intro first dst d hs hd
    have h1 : first < src.length := by omega
    have h2 : d < dst.length := by omega
    obtain ⟨r, hr, hlen, hget⟩ := ih (first + 1) (dst.set d src[first]) (d + 1)
      (by omega) (by simp; omega)
    refine ⟨r, ?_, ?_, fun i => ?_⟩
    · simp [copyLoop, List.getElem?_eq_getElem h1, h2, hr]
    · simpa using hlen
    · rw [hget i, List.getElem?_set]
      by_cases hi : i = d
      · subst hi
        simp [h2, List.getElem?_eq_getElem h1]
      · by_cases hin : d ≤ i ∧ i < d + (n + 1)
        · have h3 : d + 1 ≤ i ∧ i < d + 1 + n := by omega
          have h4 : first + 1 + (i - (d + 1)) = first + (i - d) := by omega
          simp [h3, hin, h4]
        · have h3 : ¬ (d + 1 ≤ i ∧ i < d + 1 + n) := by omega
          have h4 : ¬ d = i := fun h => hi h.symm
          simp [h3, hin, h4]

theorem stdCopy_spec (src : List α) (first last : Nat) (dst : List α) (d : Nat)
    (h : first ≤ last) (hs : last ≤ src.length) (hd : d + (last - first) ≤ dst.length) :
    ∃ r, stdCopy src first last dst d = some r ∧ r.length = dst.length ∧
      ∀ i, r[i]? = if d ≤ i ∧ i < d + (last - first) then src[first + (i - d)]? else dst[i]? := by
  obtain ⟨r, hr, hlen, hget⟩ := copyLoop_spec src (last - first) first dst d (by omega) hd
  exact ⟨r, by simp [stdCopy, h, hr], hlen, hget⟩

theorem fillLoop_spec (x : α) : ∀ (n : Nat) (buf : List α) (i : Nat),
    i + n ≤ buf.length →
    ∃ r, fillLoop x n buf i = some r ∧ r.length = buf.length ∧
      ∀ j, r[j]? = if i ≤ j ∧ j < i + n then some x else buf[j]? := by
  intro n
  induction n with
  | zero =>
    intro buf i _
    refine ⟨buf, rfl, rfl, fun j => ?_⟩
    have : ¬ (i ≤ j ∧ j < i + 0) := by omega
    rw [if_neg this]
  | succ n ih =>
    intro buf i hb
    have h2 : i < buf.length := by omega
    obtain ⟨r, hr, hlen, hget⟩ := ih (buf.set i x) (i + 1) (by simp; omega)
    refine ⟨r, ?_, ?_, fun j => ?_⟩
    · simp [fillLoop, h2, hr]
    · simpa using hlen
    · rw [hget j, List.getElem?_set]
      by_cases hj : j = i
      · subst hj
        simp [h2]
      · by_cases hin : i ≤ j ∧ j < i + (n + 1)
        · have h3 : i + 1 ≤ j ∧ j < i + 1 + n := by omega
          simp [h3, hin]
        · have h3 : ¬ (i + 1 ≤ j ∧ j < i + 1 + n) := by omega
          have h4 : ¬ i = j := fun h => hj h.symm
          simp [h3, hin, h4]

theorem fillRange_spec (x : α) (buf : List α) (first last : Nat)
    (h : first ≤ last) (hb : last ≤ buf.length) :
    ∃ r, fillRange x buf first last = some r ∧ r.length = buf.length ∧
      ∀ j, r[j]? = if first ≤ j ∧ j < last then some x else buf[j]? := by
  obtain ⟨r, hr, hlen, hget⟩ := fillLoop_spec x (last - first) buf first (by omega)
  refine ⟨r, by simp [fillRange, h, hr], hlen, fun j => ?_⟩
  rw [hget j]
  by_cases hin : first ≤ j ∧ j < last
  · have h3 : first ≤ j ∧ j < first + (last - first) := by omega
    simp [h3, hin]
  · have h3 : ¬ (first ≤ j ∧ j < first + (last - first)) := by omega
    simp [h3, hin]

theorem shiftLoop_spec : ∀ (n : Nat) (buf : List α) (it : Nat),
    (n = 0 ∨ it + n < buf.length) →
    ∃ r, shiftLoop n buf it = some r ∧ r.length = buf.length ∧
      ∀ j, r[j]? = if it ≤ j ∧ j < it + n then buf[j + 1]? else buf[j]? := by
  intro n
  induction n with
  | zero =>
    intro buf it _
    refine ⟨buf, rfl, rfl, fun j => ?_⟩
    have : ¬ (it ≤ j ∧ j < it + 0) := by omega
    rw [if_neg this]
  | succ n ih =>
    intro buf it hb
    have h1 : it + 1 < buf.length := by omega
    have h2 : it < buf.length := by omega
    obtain ⟨r, hr, hlen, hget⟩ := ih (buf.set it buf[it + 1]) (it + 1) (by simp; omega)
    refine ⟨r, ?_, ?_, fun j => ?_⟩
    · simp [shiftLoop, List.getElem?_eq_getElem h1, h2, hr]
    · simpa using hlen
    · rw [hget j, List.getElem?_set, List.getElem?_set]
      by_cases hj : j = it
      · subst hj
        have h3 : ¬ (j + 1 ≤ j ∧ j < j + 1 + n) := by omega
        have h4 : j ≤ j ∧ j < j + (n + 1) := by omega
        rw [if_neg h3, if_pos h4, if_pos rfl, if_pos h2, List.getElem?_eq_getElem h1]
      · have h5 : ¬ it = j := fun h => hj h.symm
        have h6 : ¬ it = j + 1 ∨ ¬ (it + 1 ≤ j ∧ j < it + 1 + n) := by omega
        by_cases hin : it ≤ j ∧ j < it + (n + 1)
        · have h3 : it + 1 ≤ j ∧ j < it + 1 + n := by omega
          have h7 : ¬ it = j + 1 := by omega
          rw [if_pos h3, if_pos hin, if_neg h7]
        · have h3 : ¬ (it + 1 ≤ j ∧ j < it + 1 + n) := by omega
          rw [if_neg h3, if_neg hin, if_neg h5]

/-- The loop of `Erase` leaves the block as soon as its last iteration would read the slot
just past the block. -/
theorem shiftLoop_none : ∀ (n : Nat) (buf : List α) (it : Nat),
    0 < n → buf.length ≤ it + n → shiftLoop n buf it = none := by
  intro n
  induction n with
  | zero => intro buf it h; omega
  | succ n ih =>
    intro buf it _ hb
    unfold shiftLoop
    cases hx : buf[it + 1]? with
    | none => rfl
    | some x =>
      by_cases h2 : it < buf.length
      · have hn : 0 < n := by
          rcases Nat.eq_zero_or_pos n with h0 | h0
          · subst h0
            have : it + 1 < buf.length := by
              rcases List.getElem?_eq_some.mp hx with ⟨h, _⟩
              exact h
            omega
          · exact h0
        simp only [h2, if_true]
        exact ih (buf.set it x) (it + 1) hn (by simp; omega)
      · simp [h2]

theorem copyBackwardLoop_spec : ∀ (n : Nat) (buf : List α) (last d_last : Nat),
    n ≤ last → last ≤ d_last → d_last ≤ buf.length →
    ∃ r, copyBackwardLoop n buf last d_last = some r ∧ r.length = buf.length ∧
      ∀ j, r[j]? = if d_last - n ≤ j ∧ j < d_last then buf[j - (d_last - last)]? else buf[j]? := by
  intro n
  induction n with
  | zero =>
    intro buf last d_last _ _ _
    refine ⟨buf, rfl, rfl, fun j => ?_⟩
    have : ¬ (d_last - 0 ≤ j ∧ j < d_last) := by omega
    rw [if_neg this]
  | succ n ih =>
    intro buf last d_last hn hl hd
    have h1 : last - 1 < buf.length := by omega
    have h2 : d_last - 1 < buf.length := by omega
    obtain ⟨r, hr, hlen, hget⟩ := ih (buf.set (d_last - 1) buf[last - 1]) (last - 1) (d_last - 1)
      (by omega) (by omega) (by simp; omega)
    refine ⟨r, ?_, ?_, fun j => ?_⟩
    · simp [copyBackwardLoop, List.getElem?_eq_getElem h1, h2, hr]
    · simpa using hlen
    · rw [hget j, List.getElem?_set, List.getElem?_set]
      by_cases hj : j = d_last - 1
      · subst hj
        have h3 : ¬ (d_last - 1 - n ≤ d_last - 1 ∧ d_last - 1 < d_last - 1) := by omega
        have h4 : d_last - (n + 1) ≤ d_last - 1 ∧ d_last - 1 < d_last := by omega
        have h5 : d_last - 1 - (d_last - last) = last - 1 := by omega
        rw [if_neg h3, if_pos h4, if_pos rfl, if_pos h2, h5, List.getElem?_eq_getElem h1]
      · have h5 : ¬ d_last - 1 = j := fun h => hj h.symm
        by_cases hin : d_last - (n + 1) ≤ j ∧ j < d_last
        · have h3 : d_last - 1 - n ≤ j ∧ j < d_last - 1 := by omega
          have h7 : ¬ d_last - 1 = j - (d_last - 1 - (last - 1)) := by omega
          have h8 : j - (d_last - 1 - (last - 1)) = j - (d_last - last) := by omega
          rw [if_pos h3, if_pos hin, if_neg h7, h8]
        · have h3 : ¬ (d_last - 1 - n ≤ j ∧ j < d_last - 1) := by omega
          rw [if_neg h3, if_neg hin, if_neg h5]

theorem stdCopyBackward_spec (buf : List α) (first last d_last : Nat)
    (h : first ≤ last) (hl : last ≤ d_last) (hd : d_last ≤ buf.length) :
    ∃ r, stdCopyBackward buf first last d_last = some r ∧ r.length = buf.length ∧
      ∀ j, r[j]? = if d_last - (last - first) ≤ j ∧ j < d_last then buf[j - (d_last - last)]?
        else buf[j]? := by
  obtain ⟨r, hr, hlen, hget⟩ := copyBackwardLoop_spec (last - first) buf last d_last
    (by omega) hl hd
  exact ⟨r, by simp [stdCopyBackward, h, hr], hlen, hget⟩

theorem equalLoop_true [DecidableEq α] (a b : List α) : ∀ (n i : Nat),
    (∀ j, i ≤ j → j < i + n → ∃ x, a[j]? = some x ∧ b[j]? = some x) →
    equalLoop a b n i = some true := by
  intro n
  induction n with
  | zero => intro i _; rfl
  | succ n ih =>
    intro i h
    obtain ⟨x, ha, hb⟩ := h i (le_refl i) (by omega)
    unfold equalLoop
    rw [ha, hb]
    simp only [if_true]
    exact ih (i + 1) (fun j h1 h2 => h j (by omega) (by omega))

end LoopFacts

/-! ## Facts about allocation and buffer exchange -/

section AllocFacts
variable {α : Type}

theorem Heap.length_block (H : Heap α) (n : Nat) : (H.block n).length = n := by
  simp [Heap.block]

theorem Heap.getElem?_block (H : Heap α) (n i : Nat) :
    (H.block n)[i]? = if i < n then some (H.fresh i) else none := by
  unfold Heap.block
  rw [List.getElem?_map]
  by_cases h : i < n
  · rw [List.getElem?_range h, if_pos h]; rfl
  · rw [List.getElem?_eq_none (by simp; omega), if_neg h]; rfl

theorem ArrayPtr.ofSize_unbounded (H : Heap α) (hH : H.Unbounded) (n : Nat) :
    ArrayPtr.ofSize H n = some { raw_ptr_ := H.block n, size_ := n } := by
  unfold ArrayPtr.ofSize
  by_cases h : n > 0
  · simp [h, hH n]
  · have h0 : n = 0 := by omega
    subst h0
    simp [Heap.block]

theorem SimpleVector.swapIn_of_ne_nil {ρ : Type} (v : SimpleVector α) (tmp : ArrayPtr α)
    (k : SimpleVector α → Outcome (SimpleVector α) ρ) (h : tmp.raw_ptr_ ≠ []) :
    v.swapIn tmp k = k { v with vector_ := { v.vector_ with raw_ptr_ := tmp.raw_ptr_ } } := by
  unfold SimpleVector.swapIn ArrayPtr.swap
  have : tmp.raw_ptr_.isEmpty = false := by
    cases hr : tmp.raw_ptr_ with
    | nil => exact absurd hr h
    | cons a l => rfl
  simp [this]

theorem ne_nil_of_length_pos (l : List α) (h : 0 < l.length) : l ≠ [] := by
  intro h0
  subst h0
  simp at h

/-- A list that agrees slot by slot with `s` after inserting `x` at offset `p`. -/
theorem eq_insert_of_getElem? (s r : List α) (p : Nat) (x : α) (hp : p ≤ s.length)
    (h : ∀ i, r[i]? = if i < p then s[i]? else if i = p then some x else s[i - 1]?) :
    r = s.take p ++ x :: s.drop p := by
  apply List.ext_getElem?
  intro i
  rw [h i, List.getElem?_append, List.length_take, Nat.min_eq_left hp, List.getElem?_take,
    List.getElem?_cons, List.getElem?_drop]
  by_cases h1 : i < p
  · rw [if_pos h1, if_pos h1, if_pos h1]
  · rw [if_neg h1, if_neg h1]
    by_cases h2 : i = p
    · have h3 : i - p = 0 := by omega
      rw [if_pos h2, if_pos h3]
    · have h3 : ¬ i - p = 0 := by omega
      have h4 : p + (i - p - 1) = i - 1 := by omega
      rw [if_neg h2, if_neg h3, h4]

/-- A list that agrees slot by slot with `s` after removing the element at offset `p`. -/
theorem eq_eraseIdx_of_getElem? (s r : List α) (p : Nat)
    (h : ∀ i, r[i]? = if i < p then s[i]? else s[i + 1]?) :
    r = s.eraseIdx p := by
  apply List.ext_getElem?
  intro i
  rw [h i, List.getElem?_eraseIdx]

end AllocFacts

/-! ## Facts about the member functions -/

namespace SimpleVector
variable {α : Type}

/-- Behaviour of `PushBack` on a well-formed vector when allocation succeeds and doubling the
capacity does not wrap. -/
theorem PushBack_spec (H : Heap α) (hH : H.Unbounded) (x : α) (v : SimpleVector α)
    (hwf : v.WellFormed) (hcap : v.size_ = v.capacity_ → v.capacity_ < 2 ^ 63) :
    ∃ w, PushBack H x v = .ret () w ∧ w.WellFormed ∧ w.size_ = v.size_ + 1 ∧
      w.elems = v.elems ++ [x] ∧
      w.capacity_ = (if v.size_ < v.capacity_ then v.capacity_
        else if v.capacity_ = 0 then 1 else 2 * v.capacity_) := by
  obtain ⟨hle, hlen⟩ := hwf
  unfold slots at hlen
  by_cases hc0 : v.capacity_ = 0
  · -- first growth to capacity 1
    have hs0 : v.size_ = 0 := by omega
    have hb : (H.block 1) ≠ [] := ne_nil_of_length_pos _ (by simp [Heap.length_block])
    refine ⟨{ size_ := 1, capacity_ := 1,
              vector_ := { raw_ptr_ := (H.block 1).set 0 x, size_ := v.vector_.size_ } }, ?_, ?_, ?_, ?_, ?_⟩
    · unfold PushBack
      simp only [hc0, if_true]
      rw [ArrayPtr.ofSize_unbounded H hH 1]
      simp only []
      rw [swapIn_of_ne_nil _ _ _ hb]
      simp [hs0, ArrayPtr.set?, Heap.length_block]
    · simp [WellFormed, slots, Heap.length_block]
    · simp [hs0]
    · simp [elems, slots, hs0, Heap.block, List.range_succ]
    · simp [hc0, hs0]
  · by_cases hlt : v.size_ < v.capacity_
    · -- room left: write in place
      refine ⟨{ v with vector_ := { v.vector_ with raw_ptr_ := v.vector_.raw_ptr_.set v.size_ x },
                       size_ := v.size_ + 1 }, ?_, ?_, ?_, ?_, ?_⟩
      · unfold PushBack
        simp [hc0, hlt, ArrayPtr.set?, hlen]
      · simp [WellFormed, slots, hlen]; omega
      · rfl
      · simp only [elems, slots]
        apply List.ext_getElem?
        intro i
        rw [List.getElem?_take, List.getElem?_set, List.getElem?_append, List.getElem?_take]
        simp only [List.length_take, hlen, Nat.min_eq_left hle]
        by_cases hi : i < v.size_
        · have h1 : i < v.size_ + 1 := by omega
          have h2 : ¬ v.size_ = i := by omega
          rw [if_pos h1, if_neg h2, if_pos hi, if_pos hi]
        · by_cases hi2 : i = v.size_
          · subst hi2
            simp [hlt]
          · have h1 : ¬ i < v.size_ + 1 := by omega
            rw [if_neg h1, if_neg hi]
            rw [List.getElem?_eq_none (by simp; omega)]
      · simp [hlt]
    · -- full: reallocate with doubled capacity
      have heq : v.size_ = v.capacity_ := by omega
      have hc63 := hcap heq
      have hmod : v.capacity_ * 2 % SIZE_MOD = v.capacity_ * 2 := by
        unfold SIZE_MOD
        apply Nat.mod_eq_of_lt
        omega
      obtain ⟨r, hr, hrlen, hrget⟩ := stdCopy_spec v.vector_.raw_ptr_ 0 v.size_
        (H.block (v.capacity_ * 2)) 0 (Nat.zero_le _) (by omega) (by simp [Heap.length_block]; omega)
      rw [Heap.length_block] at hrlen
      have hne : r.set v.size_ x ≠ [] := ne_nil_of_length_pos _ (by simp [hrlen]; omega)
      refine ⟨{ size_ := v.size_ + 1, capacity_ := v.capacity_ * 2,
                vector_ := { raw_ptr_ := r.set v.size_ x, size_ := v.vector_.size_ } }, ?_, ?_, ?_, ?_, ?_⟩
      · unfold PushBack
        simp only [hc0, if_false, hlt, hmod]
        rw [ArrayPtr.ofSize_unbounded H hH]
        simp only [slots, hr, ArrayPtr.set?, hrlen]
        have h3 : v.size_ < v.capacity_ * 2 := by omega
        simp only [h3, if_true]
        rw [swapIn_of_ne_nil _ _ _ hne]
        simp [hmod]
      · simp [WellFormed, slots, hrlen]; omega
      · rfl
      · simp only [elems, slots]
        apply List.ext_getElem?
        intro i
        rw [List.getElem?_take, List.getElem?_set, List.getElem?_append, List.getElem?_take, hrget]
        simp only [List.length_take, hlen, Nat.min_eq_left hle, hrlen]
        by_cases hi : i < v.size_
        · have h1 : i < v.size_ + 1 := by omega
          have h2 : ¬ v.size_ = i := by omega
          have h3 : 0 ≤ i ∧ i < 0 + (v.size_ - 0) := by omega
          rw [if_pos h1, if_neg h2, if_pos hi, if_pos hi, if_pos h3]
          simp
        · by_cases hi2 : i = v.size_
          · subst hi2
            have h3 : v.size_ < v.capacity_ * 2 := by omega
            simp [h3]
          · have h1 : ¬ i < v.size_ + 1 := by omega
            rw [if_neg h1, if_neg hi]
            rw [List.getElem?_eq_none (by simp; omega)]
      · simp [hlt, hc0]; omega

/-- A run of `PushBack` calls from a vector whose capacity is the least power of two holding
its size keeps that relation. -/
theorem pushAll_spec (H : Heap α) (hH : H.Unbounded) : ∀ (xs : List α) (v : SimpleVector α),
    v.WellFormed → v.size_ + xs.length ≤ 2 ^ 63 →
    ((v.size_ = 0 ∧ v.capacity_ = 0) ∨
      ∃ k, v.capacity_ = 2 ^ k ∧ v.size_ ≤ 2 ^ k ∧ (k = 0 ∨ 2 ^ (k - 1) < v.size_)) →
    ∃ w, pushAll H xs v = .ret () w ∧ w.WellFormed ∧ w.size_ = v.size_ + xs.length ∧
      w.elems = v.elems ++ xs ∧
      ((w.size_ = 0 ∧ w.capacity_ = 0) ∨
        ∃ k, w.capacity_ = 2 ^ k ∧ w.size_ ≤ 2 ^ k ∧ (k = 0 ∨ 2 ^ (k - 1) < w.size_)) := by
  intro xs
  induction xs with
  | nil =>
    intro v hwf _ hinv
    exact ⟨v, rfl, hwf, by simp, by simp, hinv⟩
  | cons x xs ih =>
    intro v hwf hb hinv
    simp only [List.length_cons] at hb
    obtain ⟨w1, hp, hwf1, hsz1, hel1, hcap1⟩ := PushBack_spec H hH x v hwf (by intro h; omega)
    have hinv1 : (w1.size_ = 0 ∧ w1.capacity_ = 0) ∨
        ∃ k, w1.capacity_ = 2 ^ k ∧ w1.size_ ≤ 2 ^ k ∧ (k = 0 ∨ 2 ^ (k - 1) < w1.size_) := by
      right
      rcases hinv with ⟨h0, hc0⟩ | ⟨k, hk, hle, hmin⟩
      · refine ⟨0, ?_, ?_, Or.inl rfl⟩
        · rw [hcap1]; simp [h0, hc0]
        · rw [hsz1, h0]; simp
      · by_cases hlt : v.size_ < v.capacity_
        · refine ⟨k, ?_, ?_, ?_⟩
          · rw [hcap1, if_pos hlt, hk]
          · rw [hsz1]; omega
          · rcases hmin with h | h
            · exact Or.inl h
            · right; rw [hsz1]; omega
        · have hpos : 0 < 2 ^ k := Nat.pow_pos (by norm_num)
          have hne : ¬ v.capacity_ = 0 := by omega
          refine ⟨k + 1, ?_, ?_, ?_⟩
          · rw [hcap1, if_neg hlt, if_neg hne, hk, pow_succ]; omega
          · rw [hsz1, pow_succ]; omega
          · right
            rw [hsz1]
            simp only [Nat.add_sub_cancel]
            omega
    obtain ⟨w, hw, hwf2, hsz2, hel2, hinv2⟩ := ih w1 hwf1 (by omega) hinv1
    refine ⟨w, ?_, hwf2, ?_, ?_, hinv2⟩
    · simp only [pushAll, hp]
      exact hw
    · rw [hsz2, hsz1]; simp only [List.length_cons]; omega
    · rw [hel2, hel1]; simp

theorem elems_empty : (empty : SimpleVector α).elems = [] := rfl

theorem wellFormed_empty : (empty : SimpleVector α).WellFormed := by
  simp [WellFormed, empty, slots]

/-- C1: for every n ≥ 1 (at most 2^63, beyond which no 64-bit capacity is a power of two
holding n) and every sequence of n values, pushing them in turn onto a default-constructed
vector, with every allocation succeeding, returns each time and ends with size n, the logical
elements equal to the pushed values in push order, and a capacity that is the smallest
power of two that is at least n. -/
theorem C1_PushBack_from_empty (H : Heap α) (hH : H.Unbounded) (xs : List α)
    (hn : 1 ≤ xs.length) (hb : xs.length ≤ 2 ^ 63) :
    ∃ w, pushAll H xs empty = .ret () w ∧ w.size_ = xs.length ∧ w.elems = xs ∧
      ∃ k, w.capacity_ = 2 ^ k ∧ xs.length ≤ 2 ^ k ∧ ∀ j, xs.length ≤ 2 ^ j → 2 ^ k ≤ 2 ^ j := by
  obtain ⟨w, hw, _, hsz, hel, hinv⟩ := pushAll_spec H hH xs empty wellFormed_empty
    (by simp [empty]; exact hb) (Or.inl ⟨rfl, rfl⟩)
  have hsz' : w.size_ = xs.length := by rw [hsz]; simp [empty]
  refine ⟨w, hw, hsz', by rw [hel, elems_empty]; simp, ?_⟩
  rcases hinv with ⟨h0, _⟩ | ⟨k, hk, hle, hmin⟩
  · omega
  · refine ⟨k, hk, by rw [← hsz']; exact hle, fun j hj => ?_⟩
    rcases hmin with h | h
    · subst h
      exact Nat.pow_pos (by norm_num)
    · have h1 : 2 ^ (k - 1) < 2 ^ j := by omega
      have h2 : k - 1 < j := (Nat.pow_lt_pow_iff_right (by norm_num)).mp h1
      exact Nat.pow_le_pow_right (by norm_num) (by omega)

/-- C1 at the scenario of the specification: pushing 1, 2, 3 onto an empty vector. -/
theorem C1_PushBack_from_empty_witness :
    ∃ w, pushAll (Heap.always fun _ => (0 : Int)) [1, 2, 3] empty = .ret () w ∧
      w.size_ = 3 ∧ w.elems = [1, 2, 3] ∧
      ∃ k, w.capacity_ = 2 ^ k ∧ 3 ≤ 2 ^ k ∧ ∀ j, 3 ≤ 2 ^ j → 2 ^ k ≤ 2 ^ j :=
  C1_PushBack_from_empty (Heap.always fun _ => (0 : Int)) (fun _ => rfl) [1, 2, 3]
    (by decide) (by simp)

theorem getElem?_elems (v : SimpleVector α) (i : Nat) :
    v.elems[i]? = if i < v.size_ then v.slots[i]? else none := by
  simp only [elems, List.getElem?_take]

theorem length_elems (v : SimpleVector α) (h : v.size_ ≤ v.slots.length) :
    v.elems.length = v.size_ := by
  simp only [elems, List.length_take, Nat.min_eq_left h]

/-- Behaviour of `Insert` on a well-formed vector when allocation succeeds and doubling the
capacity does not wrap.  `x` is the value found in the argument at the moment it is stored:
the value of an outside object; for an argument bound to slot `j`, the old content of slot
`j - 1` when the insertion is done in place and `pos < j ≤ size` (the shift has moved it
there), and the old content of slot `j` otherwise. -/
theorem Insert_spec (H : Heap α) (hH : H.Unbounded) (v : SimpleVector α) (hwf : v.WellFormed)
    (hcap : v.size_ = v.capacity_ → v.capacity_ < 2 ^ 63) (p : Nat) (hp : p ≤ v.size_)
    (a : Arg α) (x : α) (hout : ∀ y, a = .outside y → y = x)
    (hslot : ∀ j, a = .slot j →
      (if v.size_ < v.capacity_ ∧ p < j ∧ j ≤ v.size_ then v.slots[j - 1]? else v.slots[j]?)
        = some x) :
    ∃ w, Insert H p a v = .ret p w ∧ w.WellFormed ∧ w.size_ = v.size_ + 1 ∧
      w.elems = v.elems.take p ++ x :: v.elems.drop p ∧
      w.capacity_ = (if v.size_ < v.capacity_ then v.capacity_ else max 1 (2 * v.capacity_)) := by
  obtain ⟨hle, hlen⟩ := hwf
  have hel : v.elems.length = v.size_ := length_elems v (by omega)
  have hnp : ¬ ¬ p ≤ v.size_ := by omega
  by_cases hlt : v.size_ < v.capacity_
  · -- room left: shift the tail up by one slot inside the block
    obtain ⟨r, hr, hrlen, hrget⟩ := stdCopyBackward_spec v.slots p v.size_ (v.size_ + 1)
      hp (by omega) (by omega)
    have hps : p < r.length := by omega
    have hread : a.read r = some x := by
      cases a with
      | outside y => rw [hout y rfl]; rfl
      | slot j =>
        have h := hslot j rfl
        show r[j]? = some x
        rw [hrget j]
        by_cases hc : p < j ∧ j ≤ v.size_
        · have h1 : v.size_ + 1 - (v.size_ - p) ≤ j ∧ j < v.size_ + 1 := by omega
          have h2 : j - (v.size_ + 1 - v.size_) = j - 1 := by omega
          rw [if_pos ⟨hlt, hc⟩] at h
          rw [if_pos h1, h2]
          exact h
        · have h1 : ¬ (v.size_ + 1 - (v.size_ - p) ≤ j ∧ j < v.size_ + 1) := by omega
          rw [if_neg (fun hh => hc hh.2)] at h
          rw [if_neg h1]
          exact h
    refine ⟨{ v with vector_ := { v.vector_ with raw_ptr_ := r.set p x }, size_ := v.size_ + 1 },
      ?_, ?_, rfl, ?_, ?_⟩
    · unfold Insert
      simp only [hnp, if_false, hlt, if_true, hr, hread, ArrayPtr.set?, hps]
    · simp only [WellFormed, slots, List.length_set, hrlen]
      unfold slots at hlen
      omega
    · apply eq_insert_of_getElem? _ _ _ _ (by omega)
      intro i
      rw [getElem?_elems]
      simp only [slots, List.getElem?_set, hrget]
      rw [getElem?_elems, getElem?_elems]
      by_cases h1 : i < p
      · have h2 : ¬ p = i := by omega
        have h3 : i < v.size_ + 1 := by omega
        have h4 : ¬ (v.size_ + 1 - (v.size_ - p) ≤ i ∧ i < v.size_ + 1) := by omega
        have h5 : i < v.size_ := by omega
        rw [if_pos h3, if_neg h2, if_neg h4, if_pos h1, if_pos h5]
        rfl
      · by_cases h2 : i = p
        · subst h2
          have h3 : i < v.size_ + 1 := by omega
          rw [if_pos h3, if_pos rfl, if_pos hps, if_neg h1, if_pos rfl]
        · have h2' : ¬ p = i := fun h => h2 h.symm
          rw [if_neg h1, if_neg h2]
          by_cases h3 : i < v.size_ + 1
          · have h4 : v.size_ + 1 - (v.size_ - p) ≤ i ∧ i < v.size_ + 1 := by omega
            have h5 : i - 1 < v.size_ := by omega
            have h6 : i - (v.size_ + 1 - v.size_) = i - 1 := by omega
            rw [if_pos h3, if_neg h2', if_pos h4, if_pos h5, h6]
            rfl
          · have h5 : ¬ i - 1 < v.size_ := by omega
            rw [if_neg h3, if_neg h5]
    · rw [if_pos hlt]
  · -- full: build the new sequence in a fresh block
    have heq : v.size_ = v.capacity_ := by omega
    have hc63 := hcap heq
    have hnc : (if v.capacity_ > 0 then 2 * v.capacity_ % SIZE_MOD else 1) = max 1 (2 * v.capacity_) := by
      by_cases h0 : v.capacity_ > 0
      · have hmod : 2 * v.capacity_ % SIZE_MOD = 2 * v.capacity_ := by
          unfold SIZE_MOD
          apply Nat.mod_eq_of_lt
          omega
        rw [if_pos h0, hmod]
        omega
      · rw [if_neg h0]
        omega
    have hbig : v.size_ + 1 ≤ max 1 (2 * v.capacity_) := by omega
    -- the block after the two copies, whichever branch built it
    have hcopied : ∃ b, (if p = 0 then stdCopy v.slots 0 v.size_ (H.block (max 1 (2 * v.capacity_))) 1
          else
            match stdCopy v.slots 0 p (H.block (max 1 (2 * v.capacity_))) 0 with
            | none => none
            | some b => stdCopy v.slots p v.size_ b (p + 1)) = some b ∧
        b.length = max 1 (2 * v.capacity_) ∧
        ∀ i, i ≠ p → i < v.size_ + 1 → b[i]? = if i < p then v.slots[i]? else v.slots[i - 1]? := by
      by_cases hp0 : p = 0
      · obtain ⟨b, hb, hblen, hbget⟩ := stdCopy_spec v.slots 0 v.size_
          (H.block (max 1 (2 * v.capacity_))) 1 (Nat.zero_le _) (by omega)
          (by rw [Heap.length_block]; omega)
        rw [Heap.length_block] at hblen
        refine ⟨b, by rw [if_pos hp0]; exact hb, hblen, fun i hip hi => ?_⟩
        have h1 : 1 ≤ i ∧ i < 1 + (v.size_ - 0) := by omega
        have h2 : ¬ i < p := by omega
        rw [hbget, if_pos h1, if_neg h2]
        simp
      · obtain ⟨b1, hb1, hb1len, hb1get⟩ := stdCopy_spec v.slots 0 p
          (H.block (max 1 (2 * v.capacity_))) 0 (Nat.zero_le _) (by omega)
          (by rw [Heap.length_block]; omega)
        rw [Heap.length_block] at hb1len
        obtain ⟨b, hb, hblen, hbget⟩ := stdCopy_spec v.slots p v.size_ b1 (p + 1) hp (by omega)
          (by omega)
        refine ⟨b, by rw [if_neg hp0, hb1]; exact hb, by omega, fun i hip hi => ?_⟩
        rw [hbget, hb1get]
        by_cases h1 : i < p
        · have h2 : ¬ (p + 1 ≤ i ∧ i < p + 1 + (v.size_ - p)) := by omega
          have h3 : 0 ≤ i ∧ i < 0 + (p - 0) := by omega
          rw [if_neg h2, if_pos h3, if_pos h1]
          simp
        · have h2 : p + 1 ≤ i ∧ i < p + 1 + (v.size_ - p) := by omega
          have h3 : p + (i - (p + 1)) = i - 1 := by omega
          rw [if_pos h2, if_neg h1, h3]
    obtain ⟨b, hb, hblen, hbget⟩ := hcopied
    have hps : p < b.length := by omega
    have hne : b.set p x ≠ [] := ne_nil_of_length_pos _ (by simp only [List.length_set]; omega)
    have hread : a.read v.slots = some x := by
      cases a with
      | outside y => rw [hout y rfl]; rfl
      | slot j =>
        have h := hslot j rfl
        rw [if_neg (fun hh => hlt hh.1)] at h
        exact h
    refine ⟨{ size_ := v.size_ + 1, capacity_ := max 1 (2 * v.capacity_),
              vector_ := { raw_ptr_ := b.set p x, size_ := v.vector_.size_ } }, ?_, ?_, rfl, ?_, ?_⟩
    · unfold Insert
      simp only [hnp, if_false, hlt, hnc]
      rw [ArrayPtr.ofSize_unbounded H hH]
      simp only [hb, hread, ArrayPtr.set?, hps, if_true]
      rw [swapIn_of_ne_nil _ _ _ hne]
    · exact ⟨hbig, by simp only [slots, List.length_set, hblen]⟩
    · apply eq_insert_of_getElem? _ _ _ _ (by omega)
      intro i
      rw [getElem?_elems]
      simp only [slots, List.getElem?_set]
      rw [getElem?_elems, getElem?_elems]
      by_cases h2 : i = p
      · subst h2
        have h3 : i < v.size_ + 1 := by omega
        have h1 : ¬ i < i := by omega
        rw [if_pos h3, if_pos rfl, if_pos hps, if_neg h1, if_pos rfl]
      · have h2' : ¬ p = i := fun h => h2 h.symm
        by_cases h3 : i < v.size_ + 1
        · rw [if_pos h3, if_neg h2', hbget i h2 h3]
          by_cases h1 : i < p
          · have h5 : i < v.size_ := by omega
            rw [if_pos h1, if_pos h1, if_pos h5]
          · have h5 : i - 1 < v.size_ := by omega
            rw [if_neg h1, if_neg h1, if_neg h2, if_pos h5]
        · have h1 : ¬ i < p := by omega
          have h5 : ¬ i - 1 < v.size_ := by omega
          rw [if_neg h3, if_neg h1, if_neg h2, if_neg h5]
    · rw [if_neg hlt]

/-- The initializer-list constructor builds `v1234` from `{1, 2, 3, 4}`. -/
theorem ofList_v1234 (fresh : Nat → Int) :
    ofList (Heap.always fresh) [1, 2, 3, 4] = .ok v1234 := rfl

/-- Behaviour of `Insert` with an argument that is no slot of the vector: the value of the
argument is inserted. -/
theorem Insert_spec_outside (H : Heap α) (hH : H.Unbounded) (v : SimpleVector α)
    (hwf : v.WellFormed) (hcap : v.size_ = v.capacity_ → v.capacity_ < 2 ^ 63) (p : Nat)
    (hp : p ≤ v.size_) (x : α) :
    ∃ w, Insert H p (.outside x) v = .ret p w ∧ w.WellFormed ∧ w.size_ = v.size_ + 1 ∧
      w.elems = v.elems.take p ++ x :: v.elems.drop p ∧
      w.capacity_ = (if v.size_ < v.capacity_ then v.capacity_ else max 1 (2 * v.capacity_)) :=
  Insert_spec H hH v hwf hcap p hp (.outside x) x
    (fun y h => by cases h; rfl) (fun j h => by cases h)

/-- Behaviour of the in-place `Insert` with an argument bound to a slot after the insertion
point: the value inserted is the old content of the slot before it, not the value the
argument had at the call. -/
theorem Insert_spec_aliased (H : Heap α) (hH : H.Unbounded) (v : SimpleVector α)
    (hwf : v.WellFormed) (hroom : v.size_ < v.capacity_) (p j : Nat) (hpj : p < j)
    (hj : j ≤ v.size_) :
    ∃ w y, v.slots[j - 1]? = some y ∧ Insert H p (.slot j) v = .ret p w ∧
      w.elems = v.elems.take p ++ y :: v.elems.drop p := by
  have hlen := hwf.2
  have h1 : j - 1 < v.slots.length := by omega
  obtain ⟨w, hw, _, _, hel, _⟩ := Insert_spec H hH v hwf (fun h => by omega) p (by omega)
    (.slot j) v.slots[j - 1] (fun y h => by cases h)
    (fun i h => by
      cases h
      rw [if_pos ⟨hroom, hpj, hj⟩]
      exact List.getElem?_eq_getElem h1)
  exact ⟨w, v.slots[j - 1], List.getElem?_eq_getElem h1, hw, hel⟩

/-- C2 (defect in `Insert`): `Insert` reads its reference argument after the in-place shift.
On the well-formed `{1, 2, 3}` held with capacity 4 (left by `PopBack()` on `{1, 2, 3, 4}`),
`v.Insert(v.begin(), v[2])` is called with the value 3, but `std::copy_backward` has moved
the 2 into slot 2 before `*it_pos = value` reads it: the result is `{2, 1, 2, 3}`, not
`{3, 1, 2, 3}`.  The same call with an outside object holding 3 gives `{3, 1, 2, 3}`, and on
the full `{1, 2, 3, 4}` the reallocating branch gives `{3, 1, 2, 3, 4}`. -/
theorem C2_Insert_reads_argument_after_shift :
    PopBack (Heap.always fun _ => (0 : Int)) v1234 = .ret () v123of4 ∧
      v123of4.WellFormed ∧ v123of4.elems = [1, 2, 3] ∧
      v123of4.subscript 2 = .ret 3 v123of4 ∧
      Insert (Heap.always fun _ => (0 : Int)) 0 (.slot 2) v123of4
        = .ret 0 { size_ := 4, capacity_ := 4,
                   vector_ := { raw_ptr_ := [2, 1, 2, 3], size_ := 4 } } ∧
      ({ size_ := 4, capacity_ := 4, vector_ := { raw_ptr_ := [2, 1, 2, 3], size_ := 4 } } :
        SimpleVector Int).elems = [2, 1, 2, 3] ∧
      v123of4.elems.take 0 ++ 3 :: v123of4.elems.drop 0 = [3, 1, 2, 3] ∧
      Insert (Heap.always fun _ => (0 : Int)) 0 (.outside 3) v123of4
        = .ret 0 { size_ := 4, capacity_ := 4,
                   vector_ := { raw_ptr_ := [3, 1, 2, 3], size_ := 4 } } ∧
      Insert (Heap.always fun _ => (0 : Int)) 0 (.slot 2) v1234
        = .ret 0 { size_ := 5, capacity_ := 8,
                   vector_ := { raw_ptr_ := [3, 1, 2, 3, 4, 0, 0, 0], size_ := 4 } } :=
  ⟨rfl, by decide, rfl, rfl, rfl, rfl, rfl, rfl, rfl⟩

/-- Behaviour of `Resize` to fewer elements than the size: no allocation, the slots
`[n, size)` are reset and the size is lowered. -/
theorem Resize_shrink [Inhabited α] (H : Heap α) (n : Nat) (v : SimpleVector α)
    (hn : n < v.size_) (hs : v.size_ ≤ v.slots.length) :
    ∃ w, Resize H n v = .ret () w ∧ w.size_ = n ∧ w.capacity_ = v.capacity_ ∧
      w.slots.length = v.slots.length ∧ w.elems = v.elems.take n := by
  by_cases h0 : n = 0
  · subst h0
    refine ⟨v.Clear, ?_, rfl, rfl, rfl, ?_⟩
    · simp [Resize]
    · simp [elems, Clear]
  · obtain ⟨r, hr, hrlen, hrget⟩ := fillRange_spec (default : α) v.slots n v.size_ (by omega) hs
    refine ⟨{ v with vector_ := { v.vector_ with raw_ptr_ := r }, size_ := n }, ?_, rfl, rfl,
      hrlen, ?_⟩
    · simp [Resize, h0, hn, hr]
    · apply List.ext_getElem?
      intro i
      rw [getElem?_elems, List.getElem?_take, getElem?_elems]
      simp only [slots]
      by_cases hi : i < n
      · have h1 : ¬ (n ≤ i ∧ i < v.size_) := by omega
        have h2 : i < v.size_ := by omega
        rw [if_pos hi, if_pos hi, if_pos h2, hrget, if_neg h1]
        rfl
      · rw [if_neg hi, if_neg hi]

/-- Behaviour of `Resize` on a well-formed vector when allocation succeeds and doubling the
requested size does not wrap. -/
theorem Resize_spec [Inhabited α] (H : Heap α) (hH : H.Unbounded) (n : Nat) (v : SimpleVector α)
    (hwf : v.WellFormed) (hn : v.capacity_ ≤ n → n < 2 ^ 63) :
    ∃ w, Resize H n v = .ret () w ∧ w.WellFormed ∧ w.size_ = n ∧
      w.elems = v.elems.take n ++ List.replicate (n - v.size_) default ∧
      w.capacity_ = (if n < v.capacity_ then v.capacity_ else 2 * n) := by
  obtain ⟨hle, hlen⟩ := hwf
  by_cases hlt : n < v.size_
  · obtain ⟨w, hw, hsz, hc, hl, hel⟩ := Resize_shrink H n v hlt (by omega)
    have h1 : n < v.capacity_ := by omega
    have h2 : n - v.size_ = 0 := by omega
    refine ⟨w, hw, ⟨by omega, by omega⟩, hsz, by rw [hel, h2]; simp, by rw [hc, if_pos h1]⟩
  · by_cases h0 : n = 0
    · subst h0
      have hs0 : v.size_ = 0 := by omega
      refine ⟨v.Clear, by simp [Resize], ⟨by simp [Clear], hlen⟩, rfl, by simp [elems, Clear], ?_⟩
      by_cases hc : 0 < v.capacity_
      · rw [if_pos hc]; rfl
      · rw [if_neg hc]; simp only [Clear]; omega
    · by_cases hc : n < v.capacity_
      · -- grow inside the block
        obtain ⟨r, hr, hrlen, hrget⟩ := fillRange_spec (default : α) v.slots v.size_ n
          (by omega) (by omega)
        refine ⟨{ v with vector_ := { v.vector_ with raw_ptr_ := r }, size_ := n }, ?_, ?_, rfl,
          ?_, ?_⟩
        · simp [Resize, h0, hlt, hc, hr]
        · exact ⟨by simp only []; omega, by simp only [slots, hrlen]; exact hlen⟩
        · apply List.ext_getElem?
          intro i
          rw [getElem?_elems, List.getElem?_append, List.getElem?_take, getElem?_elems,
            List.getElem?_replicate, List.length_take, length_elems v (by omega)]
          simp only [slots, hrget]
          by_cases hi : i < v.size_
          · have h1 : i < n := by omega
            have h2 : ¬ (v.size_ ≤ i ∧ i < n) := by omega
            have h3 : i < min n v.size_ := by omega
            rw [if_pos h1, if_neg h2, if_pos h3, if_pos h1, if_pos hi]
          · have h3 : ¬ i < min n v.size_ := by omega
            rw [if_neg h3]
            by_cases h1 : i < n
            · have h2 : v.size_ ≤ i ∧ i < n := by omega
              have h4 : i - min n v.size_ < n - v.size_ := by omega
              rw [if_pos h1, if_pos h2, if_pos h4]
            · have h4 : ¬ i - min n v.size_ < n - v.size_ := by omega
              rw [if_neg h1, if_neg h4]
        · rw [if_pos hc]
      · -- reallocate to twice the requested size
        have hn63 := hn (by omega)
        have hmod : n * 2 % SIZE_MOD = 2 * n := by
          unfold SIZE_MOD
          rw [Nat.mod_eq_of_lt (by omega)]
          omega
        have hge : n ≥ v.capacity_ := by omega
        obtain ⟨b1, hb1, hb1len, hb1get⟩ := stdCopy_spec v.slots 0 v.size_ (H.block (2 * n)) 0
          (Nat.zero_le _) (by omega) (by rw [Heap.length_block]; omega)
        rw [Heap.length_block] at hb1len
        obtain ⟨b, hb, hblen, hbget⟩ := fillRange_spec (default : α) b1 v.size_ (2 * n)
          (by omega) (by omega)
        have hne : b ≠ [] := ne_nil_of_length_pos _ (by omega)
        refine ⟨{ size_ := n, capacity_ := 2 * n,
                  vector_ := { raw_ptr_ := b, size_ := v.vector_.size_ } }, ?_, ?_, rfl, ?_, ?_⟩
        · unfold Resize
          simp only [h0, if_false, hlt, hc, hge, if_true, hmod]
          rw [ArrayPtr.ofSize_unbounded H hH]
          simp only [hb1, hb]
          rw [swapIn_of_ne_nil _ _ _ hne]
        · exact ⟨by simp only []; omega, by simp only [slots]; omega⟩
        · apply List.ext_getElem?
          intro i
          rw [getElem?_elems, List.getElem?_append, List.getElem?_take, getElem?_elems,
            List.getElem?_replicate, List.length_take, length_elems v (by omega)]
          simp only [slots, hbget, hb1get]
          by_cases hi : i < v.size_
          · have h1 : i < n := by omega
            have h2 : ¬ (v.size_ ≤ i ∧ i < 2 * n) := by omega
            have h3 : i < min n v.size_ := by omega
            have h5 : 0 ≤ i ∧ i < 0 + (v.size_ - 0) := by omega
            rw [if_pos h1, if_neg h2, if_pos h3, if_pos h1, if_pos hi, if_pos h5]
            simp
          · have h3 : ¬ i < min n v.size_ := by omega
            rw [if_neg h3]
            by_cases h1 : i < n
            · have h2 : v.size_ ≤ i ∧ i < 2 * n := by omega
              have h4 : i - min n v.size_ < n - v.size_ := by omega
              rw [if_pos h1, if_pos h2, if_pos h4]
            · have h4 : ¬ i - min n v.size_ < n - v.size_ := by omega
              rw [if_neg h1, if_neg h4]
        · rw [if_neg hc]

/-- The loop of `Erase` on a vector whose block ends at `end()`: the last iteration reads
the slot at offset `size_`, outside the block. -/
theorem Erase_fault_of_full [Inhabited α] (H : Heap α) (v : SimpleVector α) (p : Nat)
    (hp : p < v.size_) (hfull : v.slots.length ≤ v.size_) :
    Erase H p v = .fault .memory := by
  have h1 : v.IsEmpty = false := by
    simp only [IsEmpty, GetSize, beq_eq_false_iff_ne, ne_eq]
    omega
  have h2 : ¬ ¬ p ≤ v.size_ := by omega
  have h3 : shiftLoop (v.size_ - p) v.slots p = none :=
    shiftLoop_none _ _ _ (by omega) (by omega)
  unfold Erase
  simp only [h1, h2, if_false, h3]
  rfl

/-- Behaviour of `Erase` at an element of a well-formed vector that has a spare slot. -/
theorem Erase_spec [Inhabited α] (H : Heap α) (v : SimpleVector α) (hwf : v.WellFormed)
    (p : Nat) (hp : p < v.size_) (hroom : v.size_ < v.capacity_) :
    ∃ w, Erase H p v = .ret p w ∧ w.WellFormed ∧ w.size_ = v.size_ - 1 ∧
      w.elems = v.elems.eraseIdx p ∧ w.capacity_ = v.capacity_ := by
  obtain ⟨hle, hlen⟩ := hwf
  have h1 : v.IsEmpty = false := by
    simp only [IsEmpty, GetSize, beq_eq_false_iff_ne, ne_eq]
    omega
  have h2 : ¬ ¬ p ≤ v.size_ := by omega
  obtain ⟨b, hb, hblen, hbget⟩ := shiftLoop_spec (v.size_ - p) v.slots p (Or.inr (by omega))
  obtain ⟨w, hw, hsz, hc, hl, hel⟩ := Resize_shrink H (v.size_ - 1)
    { v with vector_ := { v.vector_ with raw_ptr_ := b } } (by simp only []; omega)
    (by simp only [slots]; omega)
  have hc' : w.capacity_ = v.capacity_ := hc
  have hl' : w.slots.length = b.length := hl
  refine ⟨w, ?_, ?_, hsz, ?_, hc⟩
  · unfold Erase
    simp only [h1, h2, if_false, hb, hw]
    rfl
  · exact ⟨by omega, by omega⟩
  · rw [hel]
    apply eq_eraseIdx_of_getElem?
    intro i
    rw [List.getElem?_take, getElem?_elems, getElem?_elems, getElem?_elems]
    simp only [slots, hbget]
    by_cases hi : i < v.size_ - 1
    · have h3 : i < v.size_ := by omega
      have h4 : i + 1 < v.size_ := by omega
      rw [if_pos hi, if_pos h3, if_pos h3, if_pos h4]
      by_cases h5 : i < p
      · have h6 : ¬ (p ≤ i ∧ i < p + (v.size_ - p)) := by omega
        rw [if_neg h6, if_pos h5]
      · have h6 : p ≤ i ∧ i < p + (v.size_ - p) := by omega
        rw [if_pos h6, if_neg h5]
    · have h4 : ¬ i + 1 < v.size_ := by omega
      have h5 : ¬ i < p := by omega
      rw [if_neg hi, if_neg h5, if_neg h4]

/-- C3 (defect in `Erase`): on the full vector `{1, 2, 3, 4}` (size 4, capacity 4, built by the
initializer-list constructor) `Erase(begin())` does not yield `{2, 3, 4}`: the last iteration
of the shift loop reads the slot at offset 4 of the 4-slot block. -/
theorem C3_Erase_full_vector_leaves_block :
    ofList (Heap.always fun _ => (0 : Int)) [1, 2, 3, 4] = .ok v1234 ∧
      v1234.WellFormed ∧ v1234.size_ = 4 ∧ v1234.capacity_ = 4 ∧
      Erase (Heap.always fun _ => (0 : Int)) 0 v1234 = .fault .memory :=
  ⟨rfl, by decide, rfl, rfl, rfl⟩

/-- C4 (defect in `Erase`): `Insert(begin(), 42)` into a default-constructed vector returns
offset 0 and leaves a full vector (size 1, capacity 1); `Erase` at the returned offset then
reads the slot at offset 1 of the 1-slot block instead of giving back the empty sequence.
The same happens from `{1, 2, 3}` held in a block of capacity 4. -/
theorem C4_Insert_then_Erase_full_leaves_block :
    Insert (Heap.always fun _ => (0 : Int)) 0 (.outside 42) empty
        = .ret 0 { size_ := 1, capacity_ := 1, vector_ := { raw_ptr_ := [42], size_ := 0 } } ∧
      insertThenErase (Heap.always fun _ => (0 : Int)) 0 42 empty = .fault .memory ∧
      insertThenErase (Heap.always fun _ => (0 : Int)) 0 42
        { size_ := 3, capacity_ := 4, vector_ := { raw_ptr_ := [1, 2, 3, 0], size_ := 4 } }
        = .fault .memory :=
  ⟨rfl, rfl, rfl⟩

/-- C5: `At(i)` throws the out-of-range error exactly when `i ≥ size` (and then leaves the
vector as it was); when `i < size`, on a vector whose block holds its logical elements, it
returns the element at logical index `i` and leaves the vector unchanged.  In particular
`At(size)` always throws, and `At(size - 1)` returns on a non-empty vector. -/
theorem C5_At (v : SimpleVector α) (i : Nat) :
    ((∃ e s, At i v = .raised e s) ↔ v.size_ ≤ i) ∧
    (v.size_ ≤ i → At i v = .raised .out_of_range v) ∧
    (i < v.size_ → v.size_ ≤ v.slots.length →
      ∃ x, v.elems[i]? = some x ∧ At i v = .ret x v) ∧
    At v.size_ v = .raised .out_of_range v ∧
    (v.size_ ≠ 0 → v.size_ ≤ v.slots.length →
      ∃ x, v.elems[v.size_ - 1]? = some x ∧ At (v.size_ - 1) v = .ret x v) := by
  have hge : ∀ j, v.size_ ≤ j → At j v = .raised .out_of_range v := by
    intro j hj
    have : j ≥ v.size_ := hj
    simp [At, this]
  have hlt : ∀ j, j < v.size_ → v.size_ ≤ v.slots.length →
      ∃ x, v.elems[j]? = some x ∧ At j v = .ret x v := by
    intro j hj hs
    have h1 : ¬ j ≥ v.size_ := by omega
    have h2 : j < v.vector_.raw_ptr_.length := by
      unfold slots at hs
      omega
    refine ⟨v.vector_.raw_ptr_[j], ?_, ?_⟩
    · rw [getElem?_elems, if_pos hj]
      exact List.getElem?_eq_getElem h2
    · simp only [At, h1, if_false, ArrayPtr.get?, List.getElem?_eq_getElem h2]
  refine ⟨⟨?_, fun h => ⟨_, _, hge i h⟩⟩, hge i, hlt i, hge _ (le_refl _), fun h hs => hlt _ (by omega) hs⟩
  rintro ⟨e, s, h⟩
  by_contra hc
  have h1 : ¬ i ≥ v.size_ := hc
  unfold At at h
  simp only [h1, if_false] at h
  cases hg : v.vector_.get? i with
  | none => rw [hg] at h; cases h
  | some x => rw [hg] at h; cases h

/-- C5 on `{1, 2, 3, 4}`: `At(3)` returns 4 and `At(4)` throws. -/
theorem C5_At_witness :
    (∃ x, v1234.elems[3]? = some x ∧ At 3 v1234 = .ret x v1234) ∧
      At 4 v1234 = .raised .out_of_range v1234 :=
  ⟨(C5_At v1234 3).2.2.1 (by decide) (by decide), (C5_At v1234 4).2.1 (by decide)⟩

/-- C6 fails at `Resize(2^63 + 1)` on a default-constructed vector: `new_size * 2` wraps to 2,
the call returns with size `2^63 + 1` and capacity 2 over a 2-slot block, so the capacity is
not `2 * n` and the logical sequence is not `n` default values. -/
theorem C6_Resize_counterexample :
    (empty : SimpleVector Int).WellFormed ∧
      Resize (Heap.always fun _ => (0 : Int)) (2 ^ 63 + 1) empty
        = .ret () { size_ := 2 ^ 63 + 1, capacity_ := 2,
                    vector_ := { raw_ptr_ := [0, 0], size_ := 0 } } ∧
      ¬ ∃ w, Resize (Heap.always fun _ => (0 : Int)) (2 ^ 63 + 1) empty = .ret () w ∧
          w.size_ = 2 ^ 63 + 1 ∧
          w.elems = (empty : SimpleVector Int).elems.take
              (min (2 ^ 63 + 1) (empty : SimpleVector Int).elems.length)
            ++ List.replicate (2 ^ 63 + 1 - (empty : SimpleVector Int).elems.length) default ∧
          w.capacity_ = (if 2 ^ 63 + 1 < (empty : SimpleVector Int).capacity_
            then (empty : SimpleVector Int).capacity_ else 2 * (2 ^ 63 + 1)) := by
  have hr : Resize (Heap.always fun _ => (0 : Int)) (2 ^ 63 + 1) empty
      = .ret () { size_ := 2 ^ 63 + 1, capacity_ := 2,
                  vector_ := { raw_ptr_ := [0, 0], size_ := 0 } } := rfl
  refine ⟨wellFormed_empty, hr, ?_⟩
  rintro ⟨w, hw, _, _, hc⟩
  rw [hr] at hw
  injection hw with _ hw
  subst hw
  simp [empty] at hc

/-- C6 (amended): on a well-formed vector with allocation succeeding, for every `n` that is
below the capacity or below 2^63 (so that `2 * n` does not wrap), `Resize(n)` returns with
size `n`, the logical sequence being the first `min(n, |s|)` old elements followed by
`n - |s|` default values, and the capacity unchanged when `n < capacity` and `2 * n`
otherwise. -/
theorem C6_Resize [Inhabited α] (H : Heap α) (hH : H.Unbounded) (n : Nat) (v : SimpleVector α)
    (hwf : v.WellFormed) (hn : v.capacity_ ≤ n → n < 2 ^ 63) :
    ∃ w, Resize H n v = .ret () w ∧ w.size_ = n ∧
      w.elems = v.elems.take (min n v.elems.length)
        ++ List.replicate (n - v.elems.length) default ∧
      w.capacity_ = (if n < v.capacity_ then v.capacity_ else 2 * n) ∧ w.WellFormed := by
  obtain ⟨w, hw, hwf2, hsz, hel, hc⟩ := Resize_spec H hH n v hwf hn
  refine ⟨w, hw, hsz, ?_, hc, hwf2⟩
  have hl : v.elems.length = v.size_ := length_elems v (by rw [hwf.2]; exact hwf.1)
  rw [hel, hl]
  congr 1
  by_cases h : n ≤ v.size_
  · rw [Nat.min_eq_left h]
  · rw [Nat.min_eq_right (by omega), List.take_of_length_le (by omega),
      List.take_of_length_le (by omega)]

/-- C6 (amended) on `{1, 2, 3, 4}`: `Resize(6)` gives `{1, 2, 3, 4, 0, 0}` with capacity 12. -/
theorem C6_Resize_witness :
    ∃ w, Resize (Heap.always fun _ => (0 : Int)) 6 v1234 = .ret () w ∧ w.size_ = 6 ∧
      w.elems = [1, 2, 3, 4, 0, 0] ∧ w.capacity_ = 12 ∧ w.WellFormed :=
  C6_Resize (Heap.always fun _ => (0 : Int)) (fun _ => rfl) 6 v1234 (by decide)
    (fun _ => by norm_num)

/-- Behaviour of `Reserve` on a well-formed vector when allocation succeeds. -/
theorem Reserve_spec [Inhabited α] (H : Heap α) (hH : H.Unbounded) (n : Nat)
    (v : SimpleVector α) (hwf : v.WellFormed) :
    ∃ w, Reserve H n v = .ret () w ∧ w.WellFormed ∧ w.size_ = v.size_ ∧ w.elems = v.elems ∧
      w.capacity_ = max v.capacity_ n ∧ (n ≤ v.capacity_ → w = v) ∧
      (v.capacity_ < n → ∀ i, v.size_ ≤ i → i < n → w.slots[i]? = some default) := by
  obtain ⟨hle, hlen⟩ := hwf
  by_cases hgt : n > v.capacity_
  · obtain ⟨b1, hb1, hb1len, hb1get⟩ := stdCopy_spec v.slots 0 v.size_ (H.block n) 0
      (Nat.zero_le _) (by omega) (by rw [Heap.length_block]; omega)
    rw [Heap.length_block] at hb1len
    obtain ⟨b, hb, hblen, hbget⟩ := fillRange_spec (default : α) b1 v.size_ n
      (by omega) (by omega)
    have hne : b ≠ [] := ne_nil_of_length_pos _ (by omega)
    refine ⟨{ size_ := v.size_, capacity_ := n,
              vector_ := { raw_ptr_ := b, size_ := v.vector_.size_ } }, ?_, ?_, rfl, ?_, ?_, ?_, ?_⟩
    · unfold Reserve
      simp only [hgt, if_true]
      rw [ArrayPtr.ofSize_unbounded H hH]
      simp only [hb1, hb]
      rw [swapIn_of_ne_nil _ _ _ hne]
    · exact ⟨by simp only []; omega, by simp only [slots]; omega⟩
    · apply List.ext_getElem?
      intro i
      rw [getElem?_elems, getElem?_elems]
      simp only [slots, hbget, hb1get]
      by_cases hi : i < v.size_
      · have h2 : ¬ (v.size_ ≤ i ∧ i < n) := by omega
        have h5 : 0 ≤ i ∧ i < 0 + (v.size_ - 0) := by omega
        rw [if_pos hi, if_pos hi, if_neg h2, if_pos h5]
        simp
      · rw [if_neg hi, if_neg hi]
    · simp only []
      omega
    · intro h
      omega
    · intro _ i h1 h2
      have h3 : v.size_ ≤ i ∧ i < n := ⟨h1, h2⟩
      simp only [slots, hbget, if_pos h3]
  · refine ⟨v, ?_, ⟨hle, hlen⟩, rfl, rfl, by omega, fun _ => rfl, fun h => by omega⟩
    simp [Reserve, hgt]

/-- C7: on a well-formed vector with allocation succeeding, `Reserve(n)` returns, leaves the
size and the logical elements unchanged and sets the capacity to `max(capacity, n)`: it
changes nothing when `n ≤ capacity`, never lowers the capacity, and when `n > capacity` the
new block has exactly `n` slots, those at offsets `[size, n)` holding the default value. -/
theorem C7_Reserve [Inhabited α] (H : Heap α) (hH : H.Unbounded) (n : Nat) (v : SimpleVector α)
    (hwf : v.WellFormed) :
    ∃ w, Reserve H n v = .ret () w ∧ w.size_ = v.size_ ∧ w.elems = v.elems ∧
      w.capacity_ = max v.capacity_ n ∧ (n ≤ v.capacity_ → w = v) ∧
      v.capacity_ ≤ w.capacity_ ∧
      (v.capacity_ < n → w.slots.length = n ∧
        ∀ i, v.size_ ≤ i → i < n → w.slots[i]? = some default) := by
  obtain ⟨w, hw, hwf2, hsz, hel, hc, hnop, hfill⟩ := Reserve_spec H hH n v hwf
  refine ⟨w, hw, hsz, hel, hc, hnop, by omega, fun h => ⟨?_, hfill h⟩⟩
  rw [hwf2.2, hc]
  omega

/-- C7 on `{1, 2, 3, 4}`: `Reserve(6)` keeps the four elements and gives capacity 6. -/
theorem C7_Reserve_witness :
    ∃ w, Reserve (Heap.always fun _ => (7 : Int)) 6 v1234 = .ret () w ∧ w.size_ = 4 ∧
      w.elems = [1, 2, 3, 4] ∧ w.capacity_ = 6 ∧ (6 ≤ 4 → w = v1234) ∧ 4 ≤ w.capacity_ ∧
      (4 < 6 → w.slots.length = 6 ∧ ∀ i, 4 ≤ i → i < 6 → w.slots[i]? = some default) :=
  C7_Reserve (Heap.always fun _ => (7 : Int)) (fun _ => rfl) 6 v1234 (by decide)

/-- Behaviour of `PopBack` on a non-empty vector whose block holds its logical elements. -/
theorem PopBack_spec [Inhabited α] (H : Heap α) (v : SimpleVector α) (hne : v.size_ ≠ 0)
    (hs : v.size_ ≤ v.slots.length) :
    ∃ w, PopBack H v = .ret () w ∧ w.size_ = v.size_ - 1 ∧ w.capacity_ = v.capacity_ ∧
      w.slots.length = v.slots.length ∧ w.elems = v.elems.take (v.size_ - 1) := by
  have h1 : v.IsEmpty = false := by
    simp only [IsEmpty, GetSize, beq_eq_false_iff_ne, ne_eq]
    exact hne
  obtain ⟨w, hw, hsz, hc, hl, hel⟩ := Resize_shrink H (v.size_ - 1) v (by omega) hs
  refine ⟨w, ?_, hsz, hc, hl, hel⟩
  unfold PopBack
  simp only [h1]
  exact hw

/-- C8: on every non-empty vector `PopBack()` is the call `Resize(size - 1)`; when the block
holds the logical elements it returns, the size drops by one, the first `size - 1` logical
elements are unchanged and the capacity is unchanged. -/
theorem C8_PopBack [Inhabited α] (H : Heap α) (v : SimpleVector α) (hne : v.size_ ≠ 0) :
    PopBack H v = Resize H (v.size_ - 1) v ∧
      (v.size_ ≤ v.slots.length →
        ∃ w, PopBack H v = .ret () w ∧ w.size_ = v.size_ - 1 ∧
          w.elems = v.elems.take (v.size_ - 1) ∧ w.capacity_ = v.capacity_) := by
  have h1 : v.IsEmpty = false := by
    simp only [IsEmpty, GetSize, beq_eq_false_iff_ne, ne_eq]
    exact hne
  refine ⟨?_, fun hs => ?_⟩
  · unfold PopBack
    simp only [h1]
    rfl
  · obtain ⟨w, hw, hsz, hc, _, hel⟩ := PopBack_spec H v hne hs
    exact ⟨w, hw, hsz, hel, hc⟩

/-- C8 on a vector of size 1 and capacity 1: the size goes to 0 and the capacity stays 1. -/
theorem C8_PopBack_witness :
    PopBack (Heap.always fun _ => (0 : Int))
        { size_ := 1, capacity_ := 1, vector_ := { raw_ptr_ := [42], size_ := 0 } }
      = Resize (Heap.always fun _ => (0 : Int)) (1 - 1)
        { size_ := 1, capacity_ := 1, vector_ := { raw_ptr_ := [42], size_ := 0 } } ∧
      ∃ w, PopBack (Heap.always fun _ => (0 : Int))
          { size_ := 1, capacity_ := 1, vector_ := { raw_ptr_ := [42], size_ := 0 } }
          = .ret () w ∧ w.size_ = 1 - 1 ∧ w.elems = [] ∧ w.capacity_ = 1 :=
  ⟨(C8_PopBack (Heap.always fun _ => (0 : Int))
      { size_ := 1, capacity_ := 1, vector_ := { raw_ptr_ := [42], size_ := 0 } } (by decide)).1,
   (C8_PopBack (Heap.always fun _ => (0 : Int))
      { size_ := 1, capacity_ := 1, vector_ := { raw_ptr_ := [42], size_ := 0 } } (by decide)).2
      (by decide)⟩

/-- The capacity-hint constructor records the capacity and builds its buffer from `size_`,
which is 0: no block is acquired, whatever the heap. -/
theorem ofReserve_eq (H : Heap α) (n : Nat) :
    ofReserve H (SimpleVec.Reserve n)
      = .ok { size_ := 0, capacity_ := n, vector_ := { raw_ptr_ := [], size_ := 0 } } := rfl

/-- The first `PushBack` on a vector built from a non-zero capacity hint writes through the
null pointer. -/
theorem PushBack_after_ofReserve (H : Heap α) (n : Nat) (hn : 0 < n) (x : α) :
    PushBack H x { size_ := 0, capacity_ := n, vector_ := { raw_ptr_ := [], size_ := 0 } }
      = .fault .memory := by
  have h0 : ¬ n = 0 := by omega
  simp [PushBack, h0, hn, ArrayPtr.set?]

/-- C9 (defect in the capacity-hint constructor): `SimpleVector<int> v(Reserve(10))` has size 0
and capacity 10 but no block at all (0 slots instead of 10), so it is not well-formed, and the
first `PushBack` writes through the null pointer instead of leaving size 1, capacity 10. -/
theorem C9_capacity_hint_vector_has_no_block :
    ofReserve (Heap.always fun _ => (0 : Int)) (SimpleVec.Reserve 10)
        = .ok { size_ := 0, capacity_ := 10, vector_ := { raw_ptr_ := [], size_ := 0 } } ∧
      ({ size_ := 0, capacity_ := 10, vector_ := { raw_ptr_ := [], size_ := 0 } } :
        SimpleVector Int).slots.length = 0 ∧
      ¬ ({ size_ := 0, capacity_ := 10, vector_ := { raw_ptr_ := [], size_ := 0 } } :
        SimpleVector Int).WellFormed ∧
      PushBack (Heap.always fun _ => (0 : Int)) 1
          { size_ := 0, capacity_ := 10, vector_ := { raw_ptr_ := [], size_ := 0 } }
        = .fault .memory :=
  ⟨rfl, rfl, by decide, rfl⟩

/-- Behaviour of the copy constructor when allocation succeeds, on a source whose block holds
its logical elements: the copy has the size, the capacity and the logical elements of the
source, compares equal to it, and owns a block of `size_` slots. -/
theorem copy_spec [DecidableEq α] (H : Heap α) (hH : H.Unbounded) (s : SimpleVector α)
    (hs : s.size_ ≤ s.slots.length) :
    ∃ c, copy H s = .ok c ∧ c.size_ = s.size_ ∧ c.capacity_ = s.capacity_ ∧
      c.elems = s.elems ∧ c.slots.length = s.size_ ∧ eq c s = some true := by
  obtain ⟨b, hb, hblen, hbget⟩ := stdCopy_spec s.slots 0 s.size_ (H.block s.size_) 0
    (Nat.zero_le _) hs (by rw [Heap.length_block]; omega)
  rw [Heap.length_block] at hblen
  have hget : ∀ i, i < s.size_ → b[i]? = s.slots[i]? := by
    intro i hi
    have h5 : 0 ≤ i ∧ i < 0 + (s.size_ - 0) := by omega
    rw [hbget, if_pos h5]
    simp
  refine ⟨{ size_ := s.size_, capacity_ := s.capacity_,
            vector_ := { raw_ptr_ := b, size_ := s.size_ } }, ?_, rfl, rfl, ?_, hblen, ?_⟩
  · unfold copy
    simp only []
    rw [ArrayPtr.ofSize_unbounded H hH]
    simp only [hb]
  · apply List.ext_getElem?
    intro i
    rw [getElem?_elems, getElem?_elems]
    by_cases hi : i < s.size_
    · rw [if_pos hi, if_pos hi]
      exact hget i hi
    · rw [if_neg hi, if_neg hi]
  · unfold eq
    simp only [ne_eq, not_true_eq_false, if_false]
    apply equalLoop_true
    intro j _ hj
    have hj' : j < s.size_ := by omega
    have hj2 : j < s.slots.length := by omega
    refine ⟨s.slots[j], ?_, List.getElem?_eq_getElem hj2⟩
    simp only [slots]
    rw [hget j hj']
    exact List.getElem?_eq_getElem hj2

/-- C10 (defect in the copy constructor): the source obtained by `PushBack(1)`, `PushBack(2)`,
`PopBack()` is well-formed with size 1 and capacity 2; its copy has size 1 and capacity 2 but
owns a block of 1 slot (built from `size_`, not from `capacity_`), so the copy is not
well-formed, and a `PushBack` on it writes past its block. -/
theorem C10_copy_block_smaller_than_capacity :
    pushAllThenPop (Heap.always fun _ => (0 : Int)) [1, 2] empty
        = .ret () { size_ := 1, capacity_ := 2, vector_ := { raw_ptr_ := [1, 0], size_ := 0 } } ∧
      ({ size_ := 1, capacity_ := 2, vector_ := { raw_ptr_ := [1, 0], size_ := 0 } } :
        SimpleVector Int).WellFormed ∧
      copy (Heap.always fun _ => (0 : Int))
          { size_ := 1, capacity_ := 2, vector_ := { raw_ptr_ := [1, 0], size_ := 0 } }
        = .ok { size_ := 1, capacity_ := 2, vector_ := { raw_ptr_ := [1], size_ := 1 } } ∧
      ({ size_ := 1, capacity_ := 2, vector_ := { raw_ptr_ := [1], size_ := 1 } } :
        SimpleVector Int).slots.length = 1 ∧
      ¬ ({ size_ := 1, capacity_ := 2, vector_ := { raw_ptr_ := [1], size_ := 1 } } :
        SimpleVector Int).WellFormed ∧
      PushBack (Heap.always fun _ => (0 : Int)) 5
          { size_ := 1, capacity_ := 2, vector_ := { raw_ptr_ := [1], size_ := 1 } }
        = .fault .memory :=
  ⟨rfl, by decide, rfl, rfl, by decide, rfl⟩

end SimpleVector

/-! ## Comparisons -/

section CompareFacts
variable {α : Type}

theorem take_drop_succ (a : List α) (i n : Nat) (h : i < a.length) :
    (a.drop i).take (n + 1) = a[i] :: (a.drop (i + 1)).take n := by
  rw [List.drop_eq_getElem_cons h, List.take_succ_cons]

theorem equalLoop_spec [DecidableEq α] (a b : List α) : ∀ (n i : Nat),
    i + n ≤ a.length → i + n ≤ b.length →
    ∃ r, equalLoop a b n i = some r ∧ (r = true ↔ (a.drop i).take n = (b.drop i).take n) := by
  intro n
  induction n with
  | zero =>
    intro i _ _
    exact ⟨true, rfl, by simp⟩
  | succ n ih =>
    intro i ha hb
    have h1 : i < a.length := by omega
    have h2 : i < b.length := by omega
    rw [take_drop_succ a i n h1, take_drop_succ b i n h2]
    unfold equalLoop
    rw [List.getElem?_eq_getElem h1, List.getElem?_eq_getElem h2]
    simp only []
    by_cases hxy : a[i] = b[i]
    · obtain ⟨r, hr, hiff⟩ := ih (i + 1) (by omega) (by omega)
      refine ⟨r, by rw [if_pos hxy]; exact hr, ?_⟩
      rw [hiff, hxy]
      simp
    · refine ⟨false, by rw [if_neg hxy], ?_⟩
      simp [hxy]

theorem lex_cons_cases {r : α → α → Prop} {x y : α} {l1 l2 : List α}
    (h : List.Lex r (x :: l1) (y :: l2)) : r x y ∨ (x = y ∧ List.Lex r l1 l2) := by
  cases h with
  | cons h => exact Or.inr ⟨rfl, h⟩
  | rel h => exact Or.inl h

theorem lexLoop_spec [LinearOrder α] (a b : List α) : ∀ (n m i : Nat),
    i + n ≤ a.length → i + m ≤ b.length →
    ∃ r, lexLoop a b n m i = some r ∧
      (r = true ↔ List.Lex (fun x y => x < y) ((a.drop i).take n) ((b.drop i).take m)) := by
  intro n
  induction n with
  | zero =>
    intro m i _ hb
    cases m with
    | zero =>
      refine ⟨false, by simp [lexLoop], ?_⟩
      simp only [List.take_zero]
      constructor
      · intro h; cases h
      · intro h; exact absurd h (List.Lex.not_nil_right _ _)
    | succ m =>
      have h2 : i < b.length := by omega
      refine ⟨true, by simp [lexLoop], ?_⟩
      rw [take_drop_succ b i m h2]
      simp only [List.take_zero, true_iff]
      exact List.Lex.nil
  | succ n ih =>
    intro m i ha hb
    cases m with
    | zero =>
      refine ⟨false, by simp [lexLoop], ?_⟩
      simp only [List.take_zero]
      constructor
      · intro h; cases h
      · intro h; exact absurd h (List.Lex.not_nil_right _ _)
    | succ m =>
      have h1 : i < a.length := by omega
      have h2 : i < b.length := by omega
      rw [take_drop_succ a i n h1, take_drop_succ b i m h2]
      unfold lexLoop
      rw [List.getElem?_eq_getElem h1, List.getElem?_eq_getElem h2]
      simp only []
      by_cases hlt : a[i] < b[i]
      · refine ⟨true, by rw [if_pos hlt], ?_⟩
        simp only [true_iff]
        exact List.Lex.rel hlt
      · by_cases hgt : b[i] < a[i]
        · refine ⟨false, by rw [if_neg hlt, if_pos hgt], ?_⟩
          constructor
          · intro h; cases h
          · intro h
            rcases lex_cons_cases h with h3 | ⟨h3, _⟩
            · exact absurd h3 hlt
            · rw [h3] at hgt
              exact absurd hgt (lt_irrefl _)
        · obtain ⟨r, hr, hiff⟩ := ih m (i + 1) (by omega) (by omega)
          have hxy : a[i] = b[i] := le_antisymm (not_lt.mp hgt) (not_lt.mp hlt)
          refine ⟨r, by rw [if_neg hlt, if_neg hgt]; exact hr, ?_⟩
          rw [hiff, hxy]
          exact List.Lex.cons_iff.symm

end CompareFacts

namespace SimpleVector
variable {α : Type}

/-- Two vectors whose blocks hold their logical elements have the same logical sequence exactly
when they have the same size and equal elements at every index below it. -/
theorem elems_eq_iff (a b : SimpleVector α) (ha : a.size_ ≤ a.slots.length)
    (hb : b.size_ ≤ b.slots.length) :
    a.elems = b.elems ↔ a.size_ = b.size_ ∧ ∀ i, i < a.size_ → a.elems[i]? = b.elems[i]? := by
  constructor
  · intro h
    refine ⟨?_, fun i _ => by rw [h]⟩
    rw [← length_elems a ha, ← length_elems b hb, h]
  · rintro ⟨hs, h⟩
    apply List.ext_getElem?
    intro i
    by_cases hi : i < a.size_
    · exact h i hi
    · rw [getElem?_elems, getElem?_elems, if_neg hi, if_neg (by omega)]

/-- Behaviour of `operator==` on vectors whose blocks hold their logical elements. -/
theorem eq_spec [DecidableEq α] (a b : SimpleVector α) (ha : a.size_ ≤ a.slots.length)
    (hb : b.size_ ≤ b.slots.length) :
    ∃ r, eq a b = some r ∧ (r = true ↔ a.elems = b.elems) := by
  by_cases hs : a.size_ = b.size_
  · obtain ⟨r, hr, hiff⟩ := equalLoop_spec a.slots b.slots a.size_ 0 (by omega) (by omega)
    refine ⟨r, ?_, ?_⟩
    · unfold eq
      rw [if_neg (by simpa using hs)]
      exact hr
    · rw [hiff]
      simp only [List.drop_zero, elems, hs]
  · refine ⟨false, ?_, ?_⟩
    · unfold eq
      rw [if_pos hs]
    · constructor
      · intro h; cases h
      · intro h
        exact absurd ((elems_eq_iff a b ha hb).mp h).1 hs

/-- Behaviour of `operator<` on vectors whose blocks hold their logical elements. -/
theorem lt_spec [LinearOrder α] (a b : SimpleVector α) (ha : a.size_ ≤ a.slots.length)
    (hb : b.size_ ≤ b.slots.length) :
    ∃ r, lt a b = some r ∧ (r = true ↔ List.Lex (fun x y => x < y) a.elems b.elems) := by
  obtain ⟨r, hr, hiff⟩ := lexLoop_spec a.slots b.slots a.size_ b.size_ 0 (by omega) (by omega)
  refine ⟨r, hr, ?_⟩
  rw [hiff]
  simp only [List.drop_zero, elems]

/-- C14: for two vectors whose blocks hold their logical elements, `a == b` returns, and it is
true exactly when the sizes are equal and the elements at every index below the size are
equal; it is the same for any other pair of vectors with the same logical sequences (whatever
their capacities and the slots from the size on); `a != b` is its negation. -/
theorem C14_equality [DecidableEq α] (a b : SimpleVector α) (ha : a.size_ ≤ a.slots.length)
    (hb : b.size_ ≤ b.slots.length) :
    ∃ r, eq a b = some r ∧ ne a b = some (!r) ∧
      (r = true ↔ a.size_ = b.size_ ∧ ∀ i, i < a.size_ → a.elems[i]? = b.elems[i]?) ∧
      ∀ a' b' : SimpleVector α, a'.size_ ≤ a'.slots.length → b'.size_ ≤ b'.slots.length →
        a'.elems = a.elems → b'.elems = b.elems → eq a' b' = some r := by
  obtain ⟨r, hr, hiff⟩ := eq_spec a b ha hb
  refine ⟨r, hr, by simp [ne, hr], by rw [hiff]; exact elems_eq_iff a b ha hb, ?_⟩
  intro a' b' ha' hb' hea heb
  obtain ⟨r', hr', hiff'⟩ := eq_spec a' b' ha' hb'
  rw [hr']
  congr 1
  rw [hea, heb, ← hiff] at hiff'
  cases r <;> cases r' <;> simp_all

/-- C14 on `{1, 2, 3, 4}` against a vector with the same four elements in a block of 6 slots. -/
theorem C14_equality_witness :
    ∃ r, eq v1234 { size_ := 4, capacity_ := 6,
                    vector_ := { raw_ptr_ := [1, 2, 3, 4, 9, 9], size_ := 6 } } = some r ∧
      ne v1234 { size_ := 4, capacity_ := 6,
                 vector_ := { raw_ptr_ := [1, 2, 3, 4, 9, 9], size_ := 6 } } = some (!r) ∧
      r = true :=
  have h := C14_equality v1234
    { size_ := 4, capacity_ := 6, vector_ := { raw_ptr_ := [1, 2, 3, 4, 9, 9], size_ := 6 } }
    (by decide) (by decide)
  h.elim fun r hr => ⟨r, hr.1, hr.2.1, hr.2.2.1.mpr (by decide)⟩

/-- C15: for two vectors over a linearly ordered element type whose blocks hold their logical
elements, `a < b` returns and is true exactly when the logical sequence of `a` precedes that of
`b` in lexicographic order; `a <= b` is the negation of `b < a`, `a > b` is `b < a`,
`a >= b` is `b <= a`, and exactly one of `a < b`, `a == b`, `a > b` is true. -/
theorem C15_ordering [LinearOrder α] (a b : SimpleVector α) (ha : a.size_ ≤ a.slots.length)
    (hb : b.size_ ≤ b.slots.length) :
    ∃ l e g, lt a b = some l ∧ eq a b = some e ∧ lt b a = some g ∧
      (l = true ↔ List.Lex (fun x y => x < y) a.elems b.elems) ∧
      le a b = some (!g) ∧ gt a b = some g ∧ ge a b = le b a ∧
      ((l = true ∧ e = false ∧ g = false) ∨ (l = false ∧ e = true ∧ g = false) ∨
        (l = false ∧ e = false ∧ g = true)) := by
  obtain ⟨l, hl, hliff⟩ := lt_spec a b ha hb
  obtain ⟨g, hg, hgiff⟩ := lt_spec b a hb ha
  obtain ⟨e, he, heiff⟩ := eq_spec a b ha hb
  obtain ⟨e', he', heiff'⟩ := eq_spec b a hb ha
  have htri : (l = true ∧ e = false ∧ g = false ∧ e' = false) ∨
      (l = false ∧ e = true ∧ g = false ∧ e' = true) ∨
      (l = false ∧ e = false ∧ g = true ∧ e' = false) := by
    rcases trichotomous_of (List.Lex (fun (x y : α) => x < y)) a.elems b.elems with h | h | h
    · have h1 : ¬ List.Lex (fun (x y : α) => x < y) b.elems a.elems := asymm_of _ h
      have h2 : a.elems ≠ b.elems := by
        intro h3
        rw [h3] at h
        exact irrefl_of _ _ h
      have h3 : b.elems ≠ a.elems := fun h4 => h2 h4.symm
      left
      refine ⟨hliff.mpr h, ?_, ?_, ?_⟩
      · cases e with
        | false => rfl
        | true => exact absurd (heiff.mp rfl) h2
      · cases g with
        | false => rfl
        | true => exact absurd (hgiff.mp rfl) h1
      · cases e' with
        | false => rfl
        | true => exact absurd (heiff'.mp rfl) h3
    · have h1 : ¬ List.Lex (fun (x y : α) => x < y) a.elems b.elems := by
        rw [h]
        exact irrefl_of _ _
      have h2 : ¬ List.Lex (fun (x y : α) => x < y) b.elems a.elems := by
        rw [h]
        exact irrefl_of _ _
      right; left
      refine ⟨?_, heiff.mpr h, ?_, heiff'.mpr h.symm⟩
      · cases l with
        | false => rfl
        | true => exact absurd (hliff.mp rfl) h1
      · cases g with
        | false => rfl
        | true => exact absurd (hgiff.mp rfl) h2
    · have h1 : ¬ List.Lex (fun (x y : α) => x < y) a.elems b.elems := asymm_of _ h
      have h2 : a.elems ≠ b.elems := by
        intro h3
        rw [h3] at h
        exact irrefl_of _ _ h
      have h3 : b.elems ≠ a.elems := fun h4 => h2 h4.symm
      right; right
      refine ⟨?_, ?_, hgiff.mpr h, ?_⟩
      · cases l with
        | false => rfl
        | true => exact absurd (hliff.mp rfl) h1
      · cases e with
        | false => rfl
        | true => exact absurd (heiff.mp rfl) h2
      · cases e' with
        | false => rfl
        | true => exact absurd (heiff'.mp rfl) h3
  refine ⟨l, e, g, hl, he, hg, hliff, ?_, ?_, ?_, ?_⟩
  · rcases htri with ⟨h1, h2, h3, _⟩ | ⟨h1, h2, h3, _⟩ | ⟨h1, h2, h3, _⟩ <;>
      subst h1 <;> subst h2 <;> subst h3 <;> simp [le, hl, he]
  · rcases htri with ⟨h1, h2, h3, _⟩ | ⟨h1, h2, h3, _⟩ | ⟨h1, h2, h3, _⟩ <;>
      subst h1 <;> subst h2 <;> subst h3 <;> simp [gt, le, hl, he]
  · rcases htri with ⟨h1, _, h3, h4⟩ | ⟨h1, _, h3, h4⟩ | ⟨h1, _, h3, h4⟩ <;>
      subst h1 <;> subst h3 <;> subst h4 <;> simp [ge, le, hl, hg, he']
  · rcases htri with ⟨h1, h2, h3, _⟩ | ⟨h1, h2, h3, _⟩ | ⟨h1, h2, h3, _⟩
    · exact Or.inl ⟨h1, h2, h3⟩
    · exact Or.inr (Or.inl ⟨h1, h2, h3⟩)
    · exact Or.inr (Or.inr ⟨h1, h2, h3⟩)

/-- C15 on `{1, 2, 3, 4}` and `{1, 3}`: the first is the smaller one. -/
theorem C15_ordering_witness :
    ∃ l e g, lt v1234 v13 = some l ∧ eq v1234 v13 = some e ∧ lt v13 v1234 = some g ∧
      (l = true ↔ List.Lex (fun x y => x < y) v1234.elems v13.elems) ∧
      le v1234 v13 = some (!g) ∧ gt v1234 v13 = some g ∧ ge v1234 v13 = le v13 v1234 ∧
      ((l = true ∧ e = false ∧ g = false) ∨ (l = false ∧ e = true ∧ g = false) ∨
        (l = false ∧ e = false ∧ g = true)) :=
  C15_ordering v1234 v13 (by decide) (by decide)

/-! ## Move, swap and assignment -/

/-- The object `s1of2` is what two pushes and a pop leave, and it is well-formed. -/
theorem s1of2_reached :
    pushAllThenPop (Heap.always fun _ => (0 : Int)) [1, 2] empty = .ret () s1of2 ∧
      s1of2.WellFormed :=
  ⟨rfl, by decide⟩

/-- Behaviour of the move constructor when allocation succeeds, on a source whose block holds
its logical elements: the new object has the size, the capacity and the logical elements of
the source over a fresh block of `size_` slots; the source is left with size 0, capacity 0 and
the null pointer. -/
theorem moveCtor_spec (H : Heap α) (hH : H.Unbounded) (s : SimpleVector α)
    (hs : s.size_ ≤ s.slots.length) :
    ∃ d o, moveCtor H s = .ok (d, o) ∧ d.size_ = s.size_ ∧ d.capacity_ = s.capacity_ ∧
      d.elems = s.elems ∧ d.slots.length = s.size_ ∧
      o.size_ = 0 ∧ o.capacity_ = 0 ∧ o.slots = [] := by
  obtain ⟨b, hb, hblen, hbget⟩ := stdCopy_spec s.slots 0 s.size_ (H.block s.size_) 0
    (Nat.zero_le _) hs (by rw [Heap.length_block]; omega)
  rw [Heap.length_block] at hblen
  refine ⟨{ size_ := s.size_, capacity_ := s.capacity_,
            vector_ := { raw_ptr_ := b, size_ := s.size_ } },
    { size_ := 0, capacity_ := 0, vector_ := { raw_ptr_ := [], size_ := s.vector_.size_ } },
    ?_, rfl, rfl, ?_, hblen, rfl, rfl, rfl⟩
  · unfold moveCtor
    simp only []
    rw [ArrayPtr.ofSize_unbounded H hH]
    simp only [hb]
    rfl
  · apply List.ext_getElem?
    intro i
    rw [getElem?_elems, getElem?_elems]
    by_cases hi : i < s.size_
    · have h5 : 0 ≤ i ∧ i < 0 + (s.size_ - 0) := by omega
      rw [if_pos hi, if_pos hi]
      simp only [slots]
      rw [hbget, if_pos h5]
      simp [slots]
    · rw [if_neg hi, if_neg hi]

/-- C11 (defect in the move constructor): moving from the well-formed source of size 1 and
capacity 2 leaves the source with size 0, capacity 0 and no block, but the destination does not
take over the source's block of 2 slots: it owns a fresh block of 1 slot (built from `size_`)
under capacity 2, so it is not well-formed and a `PushBack` on it writes past its block. -/
theorem C11_move_ctor_block_smaller_than_capacity :
    s1of2.WellFormed ∧ s1of2.slots.length = 2 ∧
      moveCtor (Heap.always fun _ => (0 : Int)) s1of2
        = .ok ({ size_ := 1, capacity_ := 2, vector_ := { raw_ptr_ := [1], size_ := 1 } },
               { size_ := 0, capacity_ := 0, vector_ := { raw_ptr_ := [], size_ := 0 } }) ∧
      ({ size_ := 1, capacity_ := 2, vector_ := { raw_ptr_ := [1], size_ := 1 } } :
        SimpleVector Int).slots.length = 1 ∧
      ¬ ({ size_ := 1, capacity_ := 2, vector_ := { raw_ptr_ := [1], size_ := 1 } } :
        SimpleVector Int).WellFormed ∧
      PushBack (Heap.always fun _ => (0 : Int)) 5
          { size_ := 1, capacity_ := 2, vector_ := { raw_ptr_ := [1], size_ := 1 } }
        = .fault .memory :=
  ⟨by decide, rfl, rfl, rfl, by decide, rfl⟩

/-- The assertion of `ArrayPtr::swap` fails when both vectors hold the null pointer. -/
theorem swap_fault_of_null (a b : SimpleVector α) (ha : a.slots = []) (hb : b.slots = []) :
    a.swap b = .fault .assertion := by
  unfold slots at ha hb
  simp [swap, ArrayPtr.swap, ha, hb]

/-- Behaviour of `swap` when at least one of the two vectors owns a block: sizes, capacities
and blocks are exchanged. -/
theorem swap_spec (a b : SimpleVector α) (h : a.slots ≠ [] ∨ b.slots ≠ []) :
    ∃ a' b', a.swap b = .ret () (a', b') ∧
      a'.size_ = b.size_ ∧ a'.capacity_ = b.capacity_ ∧ a'.slots = b.slots ∧
      b'.size_ = a.size_ ∧ b'.capacity_ = a.capacity_ ∧ b'.slots = a.slots := by
  have hne : (a.vector_.raw_ptr_.isEmpty && b.vector_.raw_ptr_.isEmpty) = false := by
    unfold slots at h
    rcases h with h | h
    · have : a.vector_.raw_ptr_.isEmpty = false := by
        cases hr : a.vector_.raw_ptr_ with
        | nil => exact absurd hr h
        | cons x l => rfl
      simp [this]
    · have : b.vector_.raw_ptr_.isEmpty = false := by
        cases hr : b.vector_.raw_ptr_ with
        | nil => exact absurd hr h
        | cons x l => rfl
      simp [this]
  refine ⟨{ size_ := b.size_, capacity_ := b.capacity_,
            vector_ := { a.vector_ with raw_ptr_ := b.vector_.raw_ptr_ } },
    { size_ := a.size_, capacity_ := a.capacity_,
      vector_ := { b.vector_ with raw_ptr_ := a.vector_.raw_ptr_ } },
    ?_, rfl, rfl, rfl, rfl, rfl, rfl⟩
  unfold swap ArrayPtr.swap
  rw [hne]
  rfl

/-- Behaviour of copy assignment when allocation succeeds, the right-hand side holds its
logical elements in its block, and this object owns a block or the right-hand side is not
empty: this object gets the size, the capacity and the logical elements of the right-hand
side and compares equal to it. -/
theorem copyAssign_spec [DecidableEq α] (H : Heap α) (hH : H.Unbounded) (a b : SimpleVector α)
    (hb : b.size_ ≤ b.slots.length) (hne : a.slots ≠ [] ∨ b.size_ ≠ 0) :
    ∃ w, copyAssign H a b = .ret () w ∧ w.size_ = b.size_ ∧ w.capacity_ = b.capacity_ ∧
      w.elems = b.elems ∧ eq w b = some true := by
  obtain ⟨c, hc, hcs, hcc, hce, hcl, _⟩ := copy_spec H hH b hb
  have hne' : a.slots ≠ [] ∨ c.slots ≠ [] := by
    rcases hne with h | h
    · exact Or.inl h
    · exact Or.inr (ne_nil_of_length_pos _ (by omega))
  obtain ⟨a', c', hsw, h1, h2, h3, _, _, _⟩ := swap_spec a c hne'
  have hel : a'.elems = b.elems := by
    rw [← hce]
    simp only [elems, h3, h1]
  have hst : a'.size_ ≤ a'.slots.length := by rw [h3, hcl, h1, hcs]
  refine ⟨a', ?_, by rw [h1, hcs], by rw [h2, hcc], hel, ?_⟩
  · unfold copyAssign
    rw [hc]
    simp only [hsw]
  · obtain ⟨r, hr, hiff⟩ := eq_spec a' b hst hb
    rw [hr, hiff.mpr hel]

/-- C12 (defect in the assertion of `ArrayPtr::swap`): the copy assignment `a = b` of two
default-constructed vectors, and equally the self-assignment `a = a` of a default-constructed
vector, fails the assertion `raw_ptr_ != other.raw_ptr_`: the temporary copy and this object
both hold the null pointer. -/
theorem C12_copy_assign_of_empty_vectors_fails_assertion :
    (empty : SimpleVector Int).WellFormed ∧
      copy (Heap.always fun _ => (0 : Int)) empty
        = .ok { size_ := 0, capacity_ := 0, vector_ := { raw_ptr_ := [], size_ := 0 } } ∧
      copyAssign (Heap.always fun _ => (0 : Int)) empty empty = .fault .assertion :=
  ⟨wellFormed_empty, rfl, rfl⟩

/-- C13 (defect in the assertion of `ArrayPtr::swap`): `a.swap(b)` and `a = std::move(b)` on
two distinct default-constructed vectors fail the assertion `raw_ptr_ != other.raw_ptr_`,
because both hold the null pointer. -/
theorem C13_swap_of_empty_vectors_fails_assertion :
    (empty : SimpleVector Int).WellFormed ∧
      (empty : SimpleVector Int).swap empty = .fault .assertion ∧
      (empty : SimpleVector Int).moveAssign empty = .fault .assertion :=
  ⟨wellFormed_empty, rfl, rfl⟩

/-! ## Allocation failure -/

/-- Any exception leaving `PushBack` on a vector of non-zero capacity is `std::bad_alloc` and
finds the vector as it was. -/
theorem PushBack_raised_of_capacity (H : Heap α) (x : α) (v : SimpleVector α)
    (hc : v.capacity_ ≠ 0) (e : Exn) (s : SimpleVector α)
    (h : PushBack H x v = .raised e s) : e = .bad_alloc ∧ s = v := by
  unfold PushBack swapIn at h
  simp only [hc, if_false] at h
  repeat' split at h
  all_goals first
    | (cases h; exact ⟨rfl, rfl⟩)
    | cases h

/-- C16 (defect in `PushBack`): on a default-constructed vector with the allocation failing,
`PushBack(1)` throws `std::bad_alloc` after `capacity_ = 1` has been assigned: the vector is
left with capacity 1 instead of 0 and no block, so it is no longer well-formed, and the next
`PushBack`, with allocation now succeeding, writes through the null pointer. -/
theorem C16_PushBack_failed_alloc_changes_capacity :
    PushBack (Heap.never fun _ => (0 : Int)) 1 empty
        = .raised .bad_alloc
            { size_ := 0, capacity_ := 1, vector_ := { raw_ptr_ := [], size_ := 0 } } ∧
      (empty : SimpleVector Int).capacity_ = 0 ∧
      ¬ ({ size_ := 0, capacity_ := 1, vector_ := { raw_ptr_ := [], size_ := 0 } } :
        SimpleVector Int).WellFormed ∧
      PushBack (Heap.always fun _ => (0 : Int)) 1
          { size_ := 0, capacity_ := 1, vector_ := { raw_ptr_ := [], size_ := 0 } }
        = .fault .memory :=
  ⟨rfl, rfl, by decide, rfl⟩

/-- C17: on a well-formed vector, when the buffer acquisition made by `Resize(n)` (for
`n ≥ capacity`, `n ≠ 0`), by `Reserve(n)` (for `n > capacity`) or by `Insert` (on a full
vector) fails, the call throws `std::bad_alloc` and the vector is as it was; and whatever
exception leaves one of these three calls is `std::bad_alloc` with the vector as it was. -/
theorem C17_failed_alloc_keeps_state [Inhabited α] (H : Heap α) (v : SimpleVector α)
    (hwf : v.WellFormed) :
    (∀ n, n ≠ 0 → v.capacity_ ≤ n → ArrayPtr.ofSize H (n * 2 % SIZE_MOD) = none →
      Resize H n v = .raised .bad_alloc v) ∧
    (∀ n, v.capacity_ < n → ArrayPtr.ofSize H n = none →
      Reserve H n v = .raised .bad_alloc v) ∧
    (∀ p x, p ≤ v.size_ → v.size_ = v.capacity_ →
      ArrayPtr.ofSize H (if v.capacity_ > 0 then 2 * v.capacity_ % SIZE_MOD else 1) = none →
      Insert H p x v = .raised .bad_alloc v) ∧
    (∀ n e s, Resize H n v = .raised e s → e = .bad_alloc ∧ s = v) ∧
    (∀ n e s, Reserve H n v = .raised e s → e = .bad_alloc ∧ s = v) ∧
    (∀ p x e s, Insert H p x v = .raised e s → e = .bad_alloc ∧ s = v) := by
  obtain ⟨hle, _⟩ := hwf
  refine ⟨?_, ?_, ?_, ?_, ?_, ?_⟩
  · intro n h0 hc ha
    have h1 : ¬ n < v.size_ := by omega
    have h2 : ¬ n < v.capacity_ := by omega
    have h3 : n ≥ v.capacity_ := hc
    unfold Resize
    simp only [h0, if_false, h1, h2, h3, if_true, ha]
  · intro n hc ha
    have h1 : n > v.capacity_ := hc
    unfold Reserve
    simp only [h1, if_true, ha]
  · intro p x hp hfull ha
    have h1 : ¬ ¬ p ≤ v.size_ := by omega
    have h2 : ¬ v.size_ < v.capacity_ := by omega
    unfold Insert
    simp only [h1, if_false, h2, ha]
  · intro n
    unfold Resize swapIn
    simp only []
    repeat' split
    all_goals
      intro e s h
      first
        | (cases h; exact ⟨rfl, rfl⟩)
        | cases h
  · intro n e s h
    unfold Reserve swapIn at h
    repeat' split at h
    all_goals first
      | (cases h; exact ⟨rfl, rfl⟩)
      | cases h
  · intro p x
    unfold Insert swapIn
    simp only []
    repeat' split
    all_goals
      intro e s h
      first
        | (cases h; exact ⟨rfl, rfl⟩)
        | cases h

/-- C17 on `{1, 2, 3, 4}` with every allocation failing: `Resize(8)`, `Reserve(8)` and
`Insert(begin() + 1, 9)` throw `std::bad_alloc` and leave the vector as it was. -/
theorem C17_failed_alloc_keeps_state_witness :
    Resize (Heap.never fun _ => (0 : Int)) 8 v1234 = .raised .bad_alloc v1234 ∧
      SimpleVector.Reserve (Heap.never fun _ => (0 : Int)) 8 v1234 = .raised .bad_alloc v1234 ∧
      Insert (Heap.never fun _ => (0 : Int)) 1 (.outside 9) v1234
        = .raised .bad_alloc v1234 :=
  have h := C17_failed_alloc_keeps_state (Heap.never fun _ => (0 : Int)) v1234 (by decide)
  ⟨h.1 8 (by decide) (by decide) rfl, h.2.1 8 (by decide) rfl,
    h.2.2.1 1 (.outside 9) (by decide) rfl rfl⟩

/-! ## Well-formedness, unchecked access, capacity arithmetic -/

/-- Where the structural mutations keep well-formedness: with allocation succeeding, every
mutation of a well-formed vector returns a well-formed vector, provided the doubled size or
capacity does not wrap (`Resize`, `PushBack`, `Insert`), the vector has a spare slot
(`Erase`), and the two vectors do not both hold the null pointer (`swap`). -/
theorem wellFormed_preserved [Inhabited α] (H : Heap α) (hH : H.Unbounded) (v : SimpleVector α)
    (hwf : v.WellFormed) :
    v.Clear.WellFormed ∧
    (∀ n, (v.capacity_ ≤ n → n < 2 ^ 63) → ∃ w, Resize H n v = .ret () w ∧ w.WellFormed) ∧
    (∀ n, ∃ w, Reserve H n v = .ret () w ∧ w.WellFormed) ∧
    (∀ x, (v.size_ = v.capacity_ → v.capacity_ < 2 ^ 63) →
      ∃ w, PushBack H x v = .ret () w ∧ w.WellFormed) ∧
    (v.size_ ≠ 0 → ∃ w, PopBack H v = .ret () w ∧ w.WellFormed) ∧
    (∀ p x, p ≤ v.size_ → (v.size_ = v.capacity_ → v.capacity_ < 2 ^ 63) →
      ∃ w, Insert H p (.outside x) v = .ret p w ∧ w.WellFormed) ∧
    (∀ p, p < v.size_ → v.size_ < v.capacity_ → ∃ w, Erase H p v = .ret p w ∧ w.WellFormed) ∧
    (∀ o : SimpleVector α, o.WellFormed → (v.slots ≠ [] ∨ o.slots ≠ []) →
      ∃ v' o', v.swap o = .ret () (v', o') ∧ v'.WellFormed ∧ o'.WellFormed) := by
  refine ⟨?_, ?_, ?_, ?_, ?_, ?_, ?_, ?_⟩
  · exact ⟨Nat.zero_le _, hwf.2⟩
  · intro n hn
    obtain ⟨w, hw, hwf2, _⟩ := Resize_spec H hH n v hwf hn
    exact ⟨w, hw, hwf2⟩
  · intro n
    obtain ⟨w, hw, hwf2, _⟩ := Reserve_spec H hH n v hwf
    exact ⟨w, hw, hwf2⟩
  · intro x hc
    obtain ⟨w, hw, hwf2, _⟩ := PushBack_spec H hH x v hwf hc
    exact ⟨w, hw, hwf2⟩
  · intro hne
    obtain ⟨w, hw, hsz, hc, hl, _⟩ := PopBack_spec H v hne (by rw [hwf.2]; exact hwf.1)
    have h1 := hwf.1
    have h2 := hwf.2
    exact ⟨w, hw, by omega, by omega⟩
  · intro p x hp hc
    obtain ⟨w, hw, hwf2, _⟩ := Insert_spec_outside H hH v hwf hc p hp x
    exact ⟨w, hw, hwf2⟩
  · intro p hp hroom
    obtain ⟨w, hw, hwf2, _⟩ := Erase_spec H v hwf p hp hroom
    exact ⟨w, hw, hwf2⟩
  · intro o hwo hne
    obtain ⟨v', o', hsw, h1, h2, h3, h4, h5, h6⟩ := swap_spec v o hne
    refine ⟨v', o', hsw, ⟨?_, ?_⟩, ⟨?_, ?_⟩⟩
    · rw [h1, h2]; exact hwo.1
    · rw [h3, h2]; exact hwo.2
    · rw [h4, h5]; exact hwf.1
    · rw [h6, h5]; exact hwf.2

/-- C18 (defects in `Resize`, `Erase`, `swap` and `PushBack`): well-formedness is not kept by
every structural mutation.  On the well-formed default-constructed vector, `Resize(2^63 + 1)`
returns a vector of size `2^63 + 1` and capacity 2, which is not well-formed; `Erase(begin())`
on the well-formed full vector `{1, 2, 3, 4}` reads outside the block; `swap` of two
default-constructed vectors fails an assertion; `PushBack` with a failing allocation leaves
the default-constructed vector with capacity 1 and no block. -/
theorem C18_wellFormed_not_preserved :
    (empty : SimpleVector Int).WellFormed ∧
      Resize (Heap.always fun _ => (0 : Int)) (2 ^ 63 + 1) empty = .ret () wrapped ∧
      ¬ wrapped.WellFormed ∧
      v1234.WellFormed ∧
      Erase (Heap.always fun _ => (0 : Int)) 0 v1234 = .fault .memory ∧
      (empty : SimpleVector Int).swap empty = .fault .assertion ∧
      PushBack (Heap.never fun _ => (0 : Int)) 1 empty
        = .raised .bad_alloc
            { size_ := 0, capacity_ := 1, vector_ := { raw_ptr_ := [], size_ := 0 } } ∧
      ¬ ({ size_ := 0, capacity_ := 1, vector_ := { raw_ptr_ := [], size_ := 0 } } :
        SimpleVector Int).WellFormed :=
  ⟨wellFormed_empty, rfl, by simp [WellFormed, wrapped], by decide, rfl, rfl, rfl, by decide⟩

/-- The assertion of `operator[]` holds exactly when `index ≤ size`, and when `index < size`
on a vector whose block holds its logical elements the element returned is the logical
element at that index. -/
theorem subscript_spec (v : SimpleVector α) (i : Nat) :
    (v.subscriptAssert i = true ↔ i ≤ v.size_) ∧
      (i < v.size_ → v.size_ ≤ v.slots.length →
        ∃ x, v.elems[i]? = some x ∧ v.subscript i = .ret x v) := by
  refine ⟨by simp [subscriptAssert], fun hi hs => ?_⟩
  have h1 : v.subscriptAssert i = true := by simp [subscriptAssert]; omega
  have h2 : i < v.vector_.raw_ptr_.length := by
    unfold slots at hs
    omega
  refine ⟨v.vector_.raw_ptr_[i], ?_, ?_⟩
  · rw [getElem?_elems, if_pos hi]
    exact List.getElem?_eq_getElem h2
  · simp [subscript, h1, ArrayPtr.get?, List.getElem?_eq_getElem h2]

/-- C19 (defect in the assertion of `operator[]`): on `{1, 2, 3, 4}` (size 4) the asserted
condition `index <= size_` holds for index 4, so `v[4]` is not rejected and goes on to read
the slot at offset 4 of the 4-slot block, whereas `At(4)` throws; on the vector of size 1 and
capacity 2, `v[1]` passes the assertion and returns the slot past the logical end. -/
theorem C19_subscript_assertion_admits_size :
    v1234.size_ = 4 ∧ v1234.subscriptAssert 4 = true ∧
      v1234.subscript 4 = .fault .memory ∧
      At 4 v1234 = .raised .out_of_range v1234 ∧
      s1of2.size_ = 1 ∧ s1of2.elems = [1] ∧ s1of2.subscriptAssert 1 = true ∧
      s1of2.subscript 1 = .ret 0 s1of2 :=
  ⟨rfl, rfl, rfl, rfl, rfl, rfl, rfl, rfl⟩

/-- C20 (defect in `Resize`): `n = 2^63 + 1` is a `size_t` value not below the capacity 0 of a
default-constructed vector; `new_size * 2` wraps to 2, and `Resize(n)` returns with capacity 2,
which is below `n`, and size `n` above the capacity.  At `n = 2^63` the product wraps to 0 and
the call fails the assertion of `ArrayPtr::swap`. -/
theorem C20_Resize_capacity_wraps :
    2 ^ 63 + 1 < SIZE_MOD ∧ (empty : SimpleVector Int).capacity_ ≤ 2 ^ 63 + 1 ∧
      (2 ^ 63 + 1) * 2 % SIZE_MOD = 2 ∧
      Resize (Heap.always fun _ => (0 : Int)) (2 ^ 63 + 1) empty = .ret () wrapped ∧
      wrapped.capacity_ = 2 ∧ wrapped.size_ = 2 ^ 63 + 1 ∧
      ¬ 2 ^ 63 + 1 ≤ wrapped.capacity_ ∧ ¬ wrapped.size_ ≤ wrapped.capacity_ ∧
      Resize (Heap.always fun _ => (0 : Int)) (2 ^ 63) empty = .fault .assertion :=
  ⟨by norm_num [SIZE_MOD], Nat.zero_le _, by norm_num [SIZE_MOD], rfl, rfl, rfl,
    by norm_num [wrapped], by norm_num [wrapped], rfl⟩

end SimpleVector

/-! ## The owned buffer as a boolean, and the offsets `Erase` touches -/

section AccessFacts
variable {α : Type}

/-- The loop of `Erase` stays inside the block exactly when every offset it dereferences is
below the number of slots. -/
theorem shiftLoop_isSome_iff : ∀ (n : Nat) (buf : List α) (it : Nat),
    (shiftLoop n buf it).isSome = true ↔ ∀ i ∈ shiftAccesses n it, i < buf.length := by
  intro n
  induction n with
  | zero =>
    intro buf it
    simp [shiftLoop, shiftAccesses]
  | succ n ih =>
    intro buf it
    unfold shiftLoop shiftAccesses
    by_cases h1 : it + 1 < buf.length
    · have h2 : it < buf.length := by omega
      rw [List.getElem?_eq_getElem h1]
      simp only [h2, if_true]
      rw [ih (buf.set it buf[it + 1]) (it + 1)]
      simp only [List.length_set, List.mem_cons, forall_eq_or_imp]
      exact ⟨fun h => ⟨h1, h2, h⟩, fun h => h.2.2⟩
    · rw [List.getElem?_eq_none (by omega)]
      simp only [List.mem_cons, forall_eq_or_imp]
      constructor
      · intro h
        cases h
      · intro h
        exact absurd h.1 h1

/-- The last iteration of the loop of `Erase` reads the offset `it + n`. -/
theorem mem_shiftAccesses_last : ∀ (n it : Nat), 0 < n → it + n ∈ shiftAccesses n it := by
  intro n
  induction n with
  | zero => intro it h; omega
  | succ n ih =>
    intro it _
    unfold shiftAccesses
    rcases Nat.eq_zero_or_pos n with h0 | h0
    · subst h0
      simp
    · have h := ih (it + 1) h0
      have h2 : it + 1 + n = it + (n + 1) := by omega
      rw [h2] at h
      exact List.mem_cons_of_mem _ (List.mem_cons_of_mem _ h)

end AccessFacts

namespace SimpleVector
variable {α : Type}

/-- On a vector whose size equals its capacity, `Erase` at an element dereferences the offset
`capacity_`. -/
theorem capacity_mem_eraseAccesses (v : SimpleVector α) (p : Nat) (hp : p < v.size_)
    (hfull : v.size_ = v.capacity_) : v.capacity_ ∈ eraseAccesses p v := by
  unfold eraseAccesses
  apply List.mem_append_left
  have h := mem_shiftAccesses_last (v.size_ - p) p (by omega)
  have h2 : p + (v.size_ - p) = v.capacity_ := by omega
  rw [h2] at h
  exact h

/-- C21 (defect in `ArrayPtr::operator bool`): the conversion returns
`raw_ptr_ == nullptr ? true : false`, so it is true for a default-constructed `ArrayPtr`, for
`ArrayPtr(0)` and after `Release()`, which hold the null pointer, and false for `ArrayPtr(3)`,
which holds a block of 3 slots. -/
theorem C21_ArrayPtr_bool_is_inverted :
    ({} : ArrayPtr Int).raw_ptr_ = [] ∧ ({} : ArrayPtr Int).toBool = true ∧
      (ArrayPtr.ofSize (Heap.always fun _ => (0 : Int)) 0).map ArrayPtr.toBool = some true ∧
      (ArrayPtr.ofSize (Heap.always fun _ => (0 : Int)) 3).map (fun a => a.raw_ptr_)
        = some [0, 0, 0] ∧
      (ArrayPtr.ofSize (Heap.always fun _ => (0 : Int)) 3).map ArrayPtr.toBool = some false ∧
      (ArrayPtr.ofSize (Heap.always fun _ => (0 : Int)) 3).map
        (fun a => a.Release.2.toBool) = some true :=
  ⟨rfl, rfl, rfl, rfl, rfl, rfl⟩

/-- C22 (defect in `Erase`): on the well-formed full vector `{1, 2, 3, 4}` (size 4,
capacity 4) `Erase(begin())` dereferences the offsets 1, 0, 2, 1, 3, 2, 4, 3 in its shift
loop: the read at offset 4 is not below the capacity, and the call leaves the block there. -/
theorem C22_Erase_reads_slot_at_capacity :
    v1234.WellFormed ∧ v1234.size_ = 4 ∧ v1234.capacity_ = 4 ∧
      eraseAccesses 0 v1234 = [1, 0, 2, 1, 3, 2, 4, 3, 3] ∧
      v1234.capacity_ ∈ eraseAccesses 0 v1234 ∧
      ¬ (∀ i ∈ eraseAccesses 0 v1234, i < v1234.capacity_) ∧
      Erase (Heap.always fun _ => (0 : Int)) 0 v1234 = .fault .memory :=
  ⟨by decide, rfl, rfl, rfl, by decide, by decide, rfl⟩

/-- On a non-empty vector `Erase(end())` passes both assertions, runs no iteration of the shift
loop and is the call `Resize(size_ - 1)` of `PopBack`, returning the old `end()`. -/
theorem Erase_at_end_eq [Inhabited α] (H : Heap α) (v : SimpleVector α) (hne : v.size_ ≠ 0) :
    Erase H v.size_ v =
      match PopBack H v with
      | .ret _ w => .ret v.size_ w
      | .raised e w => .raised e w
      | .fault f => .fault f := by
  have h1 : v.IsEmpty = false := by
    simp only [IsEmpty, GetSize, beq_eq_false_iff_ne, ne_eq]
    exact hne
  have h2 : ¬ ¬ v.size_ ≤ v.size_ := by omega
  have h3 : ({ v with vector_ := { v.vector_ with raw_ptr_ := v.slots } } : SimpleVector α) = v := by
    cases v with
    | mk sz cap vec =>
      cases vec with
      | mk raw n => rfl
  unfold Erase PopBack
  simp only [h1, h2, if_false, Nat.sub_self, shiftLoop, h3]
  rfl

/-- C23: on every non-empty vector `Erase(end())` passes the emptiness and position
assertions (the position assertion is `pos <= end()`), so the call never ends in a failed
assertion, and it is `PopBack()` returning the old `end()`; when the block holds the logical
elements it returns with the size lowered by one, the first `size - 1` logical elements
unchanged and the capacity unchanged, the very state `PopBack()` produces. -/
theorem C23_Erase_at_end [Inhabited α] (H : Heap α) (v : SimpleVector α) (hne : v.size_ ≠ 0) :
    (v.IsEmpty = false ∧ v.size_ ≤ v.size_) ∧
      Erase H v.size_ v ≠ .fault .assertion ∧
      (v.size_ ≤ v.slots.length →
        ∃ w, Erase H v.size_ v = .ret v.size_ w ∧ PopBack H v = .ret () w ∧
          w.size_ = v.size_ - 1 ∧ w.elems = v.elems.take (v.size_ - 1) ∧
          w.capacity_ = v.capacity_) := by
  have h1 : v.IsEmpty = false := by
    simp only [IsEmpty, GetSize, beq_eq_false_iff_ne, ne_eq]
    exact hne
  have hpop : PopBack H v = Resize H (v.size_ - 1) v := by
    unfold PopBack
    simp only [h1]
    rfl
  refine ⟨⟨h1, le_refl _⟩, ?_, fun hs => ?_⟩
  · rw [Erase_at_end_eq H v hne, hpop]
    unfold Resize
    by_cases h0 : v.size_ - 1 = 0
    · simp [h0]
    · have h2 : v.size_ - 1 < v.size_ := by omega
      simp only [h0, if_false, h2, if_true]
      cases fillRange default v.slots (v.size_ - 1) v.size_ <;> simp
  · obtain ⟨w, hw, hsz, hc, _, hel⟩ := PopBack_spec H v hne hs
    refine ⟨w, ?_, hw, hsz, hel, hc⟩
    rw [Erase_at_end_eq H v hne, hw]

/-- C23 on `{1, 2, 3, 4}`: `Erase(end())` gives `{1, 2, 3}` with capacity 4, as `PopBack()`. -/
theorem C23_Erase_at_end_witness :
    Erase (Heap.always fun _ => (0 : Int)) 4 v1234 ≠ .fault .assertion ∧
      ∃ w, Erase (Heap.always fun _ => (0 : Int)) 4 v1234 = .ret 4 w ∧
        PopBack (Heap.always fun _ => (0 : Int)) v1234 = .ret () w ∧
        w.size_ = 3 ∧ w.elems = [1, 2, 3] ∧ w.capacity_ = 4 :=
  ⟨(C23_Erase_at_end (Heap.always fun _ => (0 : Int)) v1234 (by decide)).2.1,
   (C23_Erase_at_end (Heap.always fun _ => (0 : Int)) v1234 (by decide)).2.2 (by decide)⟩

end SimpleVector

end SimpleVec
